import Mathlib

/-!
Verification of the placeholder-resolution engine of the
busy-realtors-time-saviour repository.

The engine (source: `src/unnamed/part_002`) consists of
* `toKey` — the key normalizer,
* `ALIASES` / `buildExpandedVars` — the variable expander,
* `PLACEHOLDER_PATTERNS` / `fillAcrossDelimiters` — the template filler,
and, in the bracket-only variant (source: `src/unnamed/part_000`),
* `extractPlaceholders` and the `missing` computation of `PromptCard`.

JavaScript strings are modelled as `List Char` (with `String` wrappers),
JavaScript objects as association lists in insertion order, and the
concrete regular expressions of the source are modelled by executable
scanners that reproduce the leftmost, lazy (`.+?`), global matching of
`String.replace` for these particular patterns (`.` does not match a
newline; the callback receives the first capture group).  Truthiness
checks on looked-up values (`base[k]`, `expanded[key] ? … : …`) are
modelled by `tlook`, which treats a stored empty string like an absent
entry, exactly as JavaScript's falsiness does.
-/

namespace BRTS

/-- The set matched by the JavaScript regexp class `\s` (and stripped by
`String.prototype.trim`): tab, LF, VT, FF, CR, space, NBSP, ogham space
mark, the U+2000–U+200A range, LS, PS, NNBSP, MMSP, ideographic space,
BOM. -/
def isJsSpace (ch : Char) : Bool :=
  let n := ch.toNat
  (9 ≤ n && n ≤ 13) || n == 32 || n == 0xa0 || n == 0x1680 ||
  (0x2000 ≤ n && n ≤ 0x200a) || n == 0x2028 || n == 0x2029 ||
  n == 0x202f || n == 0x205f || n == 0x3000 || n == 0xfeff

/-- The set matched by the JavaScript regexp class `\w` (no `u` flag):
ASCII letters, digits and underscore. -/
def isWordChar (ch : Char) : Bool :=
  let n := ch.toNat
  (97 ≤ n && n ≤ 122) || (65 ≤ n && n ≤ 90) || (48 ≤ n && n ≤ 57) || n == 95

/-- A character survives `.replace(/[^\w\s-]/g, "")`. -/
def keepChar (ch : Char) : Bool :=
  isWordChar ch || isJsSpace ch || ch == '-'

/-- `value.replace(/ /g, " ")`, per character. -/
def nbspToSpace (ch : Char) : Char :=
  if ch = ' ' then ' ' else ch

/-- Split a character list into its maximal runs of characters not
satisfying `p` (the "words"), dropping the separators.  `acc` is the
current word, reversed. -/
def wordsByAux (p : Char → Bool) : List Char → List Char → List (List Char)
  | acc, [] => if acc = [] then [] else [acc.reverse]
  | acc, ch :: rest =>
    if p ch then
      if acc = [] then wordsByAux p [] rest
      else acc.reverse :: wordsByAux p [] rest
    else wordsByAux p (ch :: acc) rest

def wordsBy (p : Char → Bool) (l : List Char) : List (List Char) :=
  wordsByAux p [] l

/-- Join words with single spaces: the combined effect of
`.replace(/\s+/g, " ")` followed by `.trim()`. -/
def joinWords : List (List Char) → List Char
  | [] => []
  | [w] => w
  | w :: ws => w ++ ' ' :: joinWords ws

/-- The key normalizer `toKey` of the source, on character lists:
lowercase, NBSP → space, strip `[^\w\s-]`, collapse whitespace runs to a
single space, trim. -/
def toKeyL (l : List Char) : List Char :=
  joinWords (wordsBy isJsSpace
    (((l.map Char.toLower).map nbspToSpace).filter keepChar))

/-- `toKey` of the source (`src/unnamed/part_002`, lines 87–94). -/
def toKey (s : String) : String :=
  ⟨toKeyL s.data⟩

/-- `String.prototype.trim`, on character lists. -/
def jsTrimL (l : List Char) : List Char :=
  ((l.dropWhile isJsSpace).reverse.dropWhile isJsSpace).reverse

def jsTrim (s : String) : String :=
  ⟨jsTrimL s.data⟩

example : toKey "  Number   Of Bedrooms " = "number of bedrooms" := by decide
example : toKey "City/Town" = "citytown" := by decide
example : toKey "HOA Fee!" = "hoa fee" := by decide
example : toKey "" = "" := by decide
example : jsTrim "  a b  " = "a b" := by decide

/-! ### Idempotence of the key normalizer -/

theorem char_toNat_ofNat_of_lt {n : Nat} (h : n < 0xd800) :
    (Char.ofNat n).toNat = n := by
  rw [Char.ofNat, dif_pos (Or.inl h)]
  rfl

theorem toLower_toLower (c : Char) :
    Char.toLower (Char.toLower c) = Char.toLower c := by
  unfold Char.toLower
  by_cases h : c.toNat ≥ 65 ∧ c.toNat ≤ 90
  · rw [if_pos h]
    have ht : (Char.ofNat (c.toNat + 32)).toNat = c.toNat + 32 :=
      char_toNat_ofNat_of_lt (by omega)
    rw [if_neg (by rw [ht]; omega)]
  · rw [if_neg h, if_neg h]

/-- Characters reached after lowercasing and NBSP-conversion are fixed by
another round of lowercasing. -/
theorem toLower_nbsp_fixed (c : Char) :
    Char.toLower (nbspToSpace (Char.toLower c)) = nbspToSpace (Char.toLower c) := by
  by_cases h : Char.toLower c = ' '
  · rw [nbspToSpace, if_pos h]
    decide
  · rw [nbspToSpace, if_neg h]
    exact toLower_toLower c

theorem nbspToSpace_ne_nbsp (c : Char) : nbspToSpace c ≠ ' ' := by
  rw [nbspToSpace]
  split
  · decide
  · assumption

theorem nbspToSpace_fixed_of_ne (c : Char) (h : c ≠ ' ') :
    nbspToSpace c = c := by
  rw [nbspToSpace, if_neg h]

theorem wordsByAux_nil (p : Char → Bool) (acc : List Char) :
    wordsByAux p acc [] = if acc = [] then [] else [acc.reverse] := rfl

theorem wordsByAux_cons (p : Char → Bool) (acc : List Char) (ch : Char)
    (rest : List Char) :
    wordsByAux p acc (ch :: rest) =
      if p ch then
        if acc = [] then wordsByAux p [] rest
        else acc.reverse :: wordsByAux p [] rest
      else wordsByAux p (ch :: acc) rest := rfl

/-- Every word produced by `wordsBy` is nonempty and free of separator
characters. -/
theorem wordsByAux_mem (p : Char → Bool) :
    ∀ (l acc : List Char), (∀ c ∈ acc, p c = false) →
      ∀ w ∈ wordsByAux p acc l, w ≠ [] ∧ ∀ c ∈ w, p c = false := by
  intro l
  induction l with
  | nil =>
    intro acc hacc w hw
    rw [wordsByAux_nil] at hw
    by_cases h : acc = []
    · rw [if_pos h] at hw
      exact absurd hw (List.not_mem_nil w)
    · rw [if_neg h] at hw
      rcases List.mem_singleton.mp hw with rfl
      refine ⟨by simpa using h, ?_⟩
      intro c hc
      exact hacc c (List.mem_reverse.mp hc)
  | cons x xs ih =>
    intro acc hacc w hw
    rw [wordsByAux_cons] at hw
    by_cases hp : p x
    · rw [if_pos hp] at hw
      by_cases h : acc = []
      · rw [if_pos h] at hw
        exact ih [] (by intro c hc; exact absurd hc (List.not_mem_nil c)) w hw
      · rw [if_neg h] at hw
        rcases List.mem_cons.mp hw with rfl | hw'
        · refine ⟨by simpa using h, ?_⟩
          intro c hc
          exact hacc c (List.mem_reverse.mp hc)
        · exact ih [] (by intro c hc; exact absurd hc (List.not_mem_nil c)) w hw'
    · rw [if_neg hp] at hw
      refine ih (x :: acc) ?_ w hw
      intro c hc
      rcases List.mem_cons.mp hc with rfl | hc'
      · exact Bool.eq_false_iff.mpr hp
      · exact hacc c hc'

theorem wordsBy_mem (p : Char → Bool) (l : List Char) :
    ∀ w ∈ wordsBy p l, w ≠ [] ∧ ∀ c ∈ w, p c = false :=
  wordsByAux_mem p l [] (by intro c hc; exact absurd hc (List.not_mem_nil c))

theorem mem_joinWords {c : Char} :
    ∀ {ws : List (List Char)}, c ∈ joinWords ws →
      (∃ w ∈ ws, c ∈ w) ∨ c = ' ' := by
  intro ws
  induction ws with
  | nil => intro h; exact absurd h (List.not_mem_nil c)
  | cons w ws ih =>
    intro h
    cases ws with
    | nil =>
      left
      exact ⟨w, List.mem_singleton.mpr rfl, h⟩
    | cons w' ws' =>
      rw [show joinWords (w :: w' :: ws') = w ++ ' ' :: joinWords (w' :: ws')
            from rfl] at h
      rcases List.mem_append.mp h with hw | hrest
      · exact Or.inl ⟨w, List.mem_cons_self w _, hw⟩
      · rcases List.mem_cons.mp hrest with rfl | hj
        · exact Or.inr rfl
        · rcases ih hj with ⟨w'', hw'', hc⟩ | hsp
          · exact Or.inl ⟨w'', List.mem_cons_of_mem w hw'', hc⟩
          · exact Or.inr hsp

/-- Scanning a separator-free word appends it (reversed) to the
accumulator. -/
theorem wordsByAux_word (p : Char → Bool) :
    ∀ (w acc rest : List Char), (∀ c ∈ w, p c = false) →
      wordsByAux p acc (w ++ rest) = wordsByAux p (w.reverse ++ acc) rest := by
  intro w
  induction w with
  | nil => intro acc rest _; simp
  | cons x xs ih =>
    intro acc rest hw
    have hx : p x = false := hw x (List.mem_cons_self x xs)
    rw [List.cons_append,
      wordsByAux_cons p acc x (xs ++ rest),
      if_neg (by rw [hx]; exact Bool.false_ne_true),
      ih (x :: acc) rest (by intro c hc; exact hw c (List.mem_cons_of_mem x hc))]
    simp

/-- Splitting the single-space join of nonempty separator-free words
recovers exactly those words. -/
theorem wordsBy_joinWords (p : Char → Bool) (hsp : p ' ' = true) :
    ∀ ws : List (List Char),
      (∀ w ∈ ws, w ≠ [] ∧ ∀ c ∈ w, p c = false) →
      wordsBy p (joinWords ws) = ws := by
  intro ws
  induction ws with
  | nil => intro _; rfl
  | cons w ws ih =>
    intro h
    have hw := h w (List.mem_cons_self w ws)
    cases ws with
    | nil =>
      show wordsByAux p [] (joinWords [w]) = [w]
      rw [show joinWords [w] = w from rfl,
        show w = w ++ ([] : List Char) by simp,
        wordsByAux_word p w [] [] (by simpa using hw.2),
        wordsByAux_nil,
        if_neg (by simpa using hw.1)]
      simp
    | cons w' ws' =>
      show wordsByAux p [] (joinWords (w :: w' :: ws')) = w :: w' :: ws'
      have hih : wordsByAux p [] (joinWords (w' :: ws')) = w' :: ws' :=
        ih (by intro u hu; exact h u (List.mem_cons_of_mem w hu))
      rw [show joinWords (w :: w' :: ws') = w ++ ' ' :: joinWords (w' :: ws')
            from rfl,
        wordsByAux_word p w [] (' ' :: joinWords (w' :: ws')) hw.2,
        wordsByAux_cons, if_pos hsp,
        if_neg (by simpa using hw.1), hih]
      simp

/-- The characters of a word of `wordsBy` come from the scanned list. -/
theorem wordsByAux_subset (p : Char → Bool) :
    ∀ (l acc : List Char), ∀ w ∈ wordsByAux p acc l, ∀ c ∈ w, c ∈ acc ∨ c ∈ l := by
  intro l
  induction l with
  | nil =>
    intro acc w hw c hc
    rw [wordsByAux_nil] at hw
    by_cases h : acc = []
    · rw [if_pos h] at hw
      exact absurd hw (List.not_mem_nil w)
    · rw [if_neg h] at hw
      rcases List.mem_singleton.mp hw with rfl
      exact Or.inl (List.mem_reverse.mp hc)
  | cons x xs ih =>
    intro acc w hw c hc
    rw [wordsByAux_cons] at hw
    by_cases hp : p x
    · rw [if_pos hp] at hw
      by_cases h : acc = []
      · rw [if_pos h] at hw
        rcases ih [] w hw c hc with hin | hin
        · exact absurd hin (List.not_mem_nil c)
        · exact Or.inr (List.mem_cons_of_mem x hin)
      · rw [if_neg h] at hw
        rcases List.mem_cons.mp hw with rfl | hw'
        · exact Or.inl (List.mem_reverse.mp hc)
        · rcases ih [] w hw' c hc with hin | hin
          · exact absurd hin (List.not_mem_nil c)
          · exact Or.inr (List.mem_cons_of_mem x hin)
    · rw [if_neg hp] at hw
      rcases ih (x :: acc) w hw c hc with hin | hin
      · rcases List.mem_cons.mp hin with rfl | hin'
        · exact Or.inr (List.mem_cons_self c xs)
        · exact Or.inl hin'
      · exact Or.inr (List.mem_cons_of_mem x hin)

theorem wordsBy_subset (p : Char → Bool) (l : List Char) :
    ∀ w ∈ wordsBy p l, ∀ c ∈ w, c ∈ l := by
  intro w hw c hc
  rcases wordsByAux_subset p l [] w hw c hc with h | h
  · exact absurd h (List.not_mem_nil c)
  · exact h

theorem map_id_of_fixed {f : Char → Char} {l : List Char}
    (h : ∀ c ∈ l, f c = c) : l.map f = l := by
  induction l with
  | nil => rfl
  | cons x xs ih =>
    rw [List.map_cons, h x (List.mem_cons_self x xs),
      ih (by intro c hc; exact h c (List.mem_cons_of_mem x hc))]

theorem filter_id_of_kept {p : Char → Bool} {l : List Char}
    (h : ∀ c ∈ l, p c = true) : l.filter p = l := by
  induction l with
  | nil => rfl
  | cons x xs ih =>
    rw [List.filter_cons, if_pos (h x (List.mem_cons_self x xs)),
      ih (by intro c hc; exact h c (List.mem_cons_of_mem x hc))]

/-- Every character of `toKeyL l` is fixed by lowercasing, is not a NBSP,
and survives the `[^\w\s-]` strip. -/
theorem toKeyL_char_props (l : List Char) :
    ∀ c ∈ toKeyL l,
      Char.toLower c = c ∧ nbspToSpace c = c ∧ keepChar c = true := by
  intro c hc
  unfold toKeyL at hc
  rcases mem_joinWords hc with ⟨w, hw, hcw⟩ | rfl
  · have hmem : c ∈ ((l.map Char.toLower).map nbspToSpace).filter keepChar :=
      wordsBy_subset isJsSpace _ w hw c hcw
    have hkeep : keepChar c = true := (List.mem_filter.mp hmem).2
    have hmap : c ∈ (l.map Char.toLower).map nbspToSpace :=
      (List.mem_filter.mp hmem).1
    rcases List.mem_map.mp hmap with ⟨c', hc', rfl⟩
    rcases List.mem_map.mp hc' with ⟨a, _, rfl⟩
    refine ⟨toLower_nbsp_fixed a, ?_, hkeep⟩
    exact nbspToSpace_fixed_of_ne _ (nbspToSpace_ne_nbsp (Char.toLower a))
  · exact ⟨by decide, by decide, by decide⟩

theorem toKeyL_idempotent (l : List Char) : toKeyL (toKeyL l) = toKeyL l := by
  have hprops := toKeyL_char_props l
  have h1 : (toKeyL l).map Char.toLower = toKeyL l :=
    map_id_of_fixed (by intro c hc; exact (hprops c hc).1)
  have h2 : (toKeyL l).map nbspToSpace = toKeyL l :=
    map_id_of_fixed (by intro c hc; exact (hprops c hc).2.1)
  have h3 : (toKeyL l).filter keepChar = toKeyL l :=
    filter_id_of_kept (by intro c hc; exact (hprops c hc).2.2)
  show joinWords (wordsBy isJsSpace
    ((((toKeyL l).map Char.toLower).map nbspToSpace).filter keepChar)) = toKeyL l
  rw [h1, h2, h3]
  rw [show toKeyL l = joinWords (wordsBy isJsSpace
        (((l.map Char.toLower).map nbspToSpace).filter keepChar)) from rfl,
    wordsBy_joinWords isJsSpace (by decide) _
      (wordsBy_mem isJsSpace _)]

theorem toKey_idem (s : String) : toKey (toKey s) = toKey s :=
  congrArg String.mk (toKeyL_idempotent s.data)

theorem jsTrimL_eq (l : List Char) :
    jsTrimL l = List.rdropWhile isJsSpace (l.dropWhile isJsSpace) := rfl

theorem dropWhile_head_false {p : Char → Bool} :
    ∀ (l : List Char) (x : Char) (rs : List Char),
      l.dropWhile p = x :: rs → p x = false := by
  intro l
  induction l with
  | nil => intro x rs h; exact absurd h (by simp)
  | cons y ys ih =>
    intro x rs h
    by_cases hp : p y
    · rw [List.dropWhile_cons_of_pos hp] at h
      exact ih x rs h
    · rw [List.dropWhile_cons_of_neg hp] at h
      rcases List.cons.injEq .. ▸ h with ⟨rfl, _⟩
      exact Bool.eq_false_iff.mpr hp

theorem jsTrimL_idem (l : List Char) : jsTrimL (jsTrimL l) = jsTrimL l := by
  rw [jsTrimL_eq, jsTrimL_eq l]
  have hdropm : (l.dropWhile isJsSpace).dropWhile isJsSpace
      = l.dropWhile isJsSpace := List.dropWhile_idempotent isJsSpace l
  obtain ⟨t, ht⟩ := List.rdropWhile_prefix isJsSpace (l.dropWhile isJsSpace)
  have hdropr : (List.rdropWhile isJsSpace (l.dropWhile isJsSpace)).dropWhile
      isJsSpace = List.rdropWhile isJsSpace (l.dropWhile isJsSpace) := by
    cases hr : List.rdropWhile isJsSpace (l.dropWhile isJsSpace) with
    | nil => rfl
    | cons x rs =>
      rw [hr] at ht
      have hx : isJsSpace x = false := by
        refine dropWhile_head_false (l.dropWhile isJsSpace) x (rs ++ t) ?_
        rw [hdropm, ← ht]
        rfl
      exact List.dropWhile_cons_of_neg (by rw [hx]; exact Bool.false_ne_true)
  rw [hdropr, List.rdropWhile_idempotent]

theorem jsTrim_idem (s : String) : jsTrim (jsTrim s) = jsTrim s :=
  congrArg String.mk (jsTrimL_idem s.data)

/-! ### The variable expander

JavaScript objects with string keys are modelled as association lists in
insertion order: `alookup` is property read, `aset` is property
assignment (update in place if the key exists, else append, as object
insertion order does), and `tlook` is a property read followed by the
truthiness test the source applies to every read value.  -/

def alookup : List (String × String) → String → Option String
  | [], _ => none
  | (k, v) :: rest, q => if q = k then some v else alookup rest q

def aset : List (String × String) → String → String → List (String × String)
  | [], k, v => [(k, v)]
  | (k', v') :: rest, k, v =>
    if k' = k then (k', v) :: rest else (k', v') :: aset rest k v

/-- Truthy read: a stored `""` behaves like an absent property in every
`if (!base[k])`-style test of the source. -/
def tlook (l : List (String × String)) (q : String) : Option String :=
  match alookup l q with
  | some v => if v = "" then none else some v
  | none => none

/-- First-some on options (the `break` of the alias search). -/
def oor : Option String → Option String → Option String
  | some v, _ => some v
  | none, b => b

/-- The alias search of the expander's second pass: first alias (in
declared order) whose slot is truthy. -/
def firstTruthyKeys (base : List (String × String)) : List String → Option String
  | [] => none
  | a :: rest =>
    match tlook base (toKey a) with
    | some v => some v
    | none => firstTruthyKeys base rest

/-- `ALIASES` of the source (`src/unnamed/part_002`, lines 74–85), in
declaration order. -/
def ALIASES : List (String × List String) :=
  [("number of bedrooms", ["bedrooms", "beds"]),
   ("number of bathrooms", ["bathrooms", "baths"]),
   ("unique selling points", ["key features", "features"]),
   ("property type", ["type", "ptype"]),
   ("neighbourhood", ["neighborhood"]),
   ("neighbourhood characteristics", ["neighborhood characteristics"]),
   ("city/town", ["city"]),
   ("year built", ["built year", "yr built"]),
   ("hoa fee", ["hoa", "hoa fees"]),
   ("hoa fees", ["hoa fee", "hoa"])]

/-- First loop of `buildExpandedVars`: normalize keys, trim values, skip
falsy (empty) values; plain assignment gives last-write-wins on key
collisions. -/
def step1 (vars : List (String × String)) : List (String × String) :=
  vars.foldl
    (fun acc kv =>
      let v := jsTrim kv.2
      if v = "" then acc else aset acc (toKey kv.1) v)
    []

/-- One group of the second loop (alias → canonical). -/
def p2Group (base : List (String × String)) (c : String) (as : List String) :
    List (String × String) :=
  match tlook base (toKey c) with
  | some _ => base
  | none =>
    match firstTruthyKeys base as with
    | some v => aset base (toKey c) v
    | none => base

/-- One step of the alias fill inside the third loop. -/
def p3Step (v : String) (b : List (String × String)) (a : String) :
    List (String × String) :=
  match tlook b (toKey a) with
  | some _ => b
  | none => aset b (toKey a) v

/-- One group of the third loop (canonical → alias). -/
def p3Group (base : List (String × String)) (c : String) (as : List String) :
    List (String × String) :=
  match tlook base (toKey c) with
  | none => base
  | some v => as.foldl (p3Step v) base

def p2run (gs : List (String × List String)) (base : List (String × String)) :
    List (String × String) :=
  gs.foldl (fun b g => p2Group b g.1 g.2) base

def p3run (gs : List (String × List String)) (base : List (String × String)) :
    List (String × String) :=
  gs.foldl (fun b g => p3Group b g.1 g.2) base

/-- `buildExpandedVars` of the source (`src/unnamed/part_002`,
lines 96–128). -/
def buildExpandedVars (vars : List (String × String)) :
    List (String × String) :=
  p3run ALIASES (p2run ALIASES (step1 vars))

example : buildExpandedVars [("bedrooms", "3")] =
    [("bedrooms", "3"), ("number of bedrooms", "3"), ("beds", "3")] := by
  decide

example : tlook (buildExpandedVars [("bedrooms", "3"), ("beds", "4")])
    "number of bedrooms" = some "3" := by decide

example : tlook (buildExpandedVars [("hoa", " 120 ")]) "hoa fees"
    = some "120" := by decide

/-! ### Lookup lemmas for the map operations -/

theorem oor_some (v : String) (b : Option String) : oor (some v) b = some v := rfl

theorem oor_none (b : Option String) : oor none b = b := rfl

theorem oor_ne_none_left {a b : Option String} (h : a ≠ none) :
    oor a b = a := by
  cases a with
  | none => exact absurd rfl h
  | some v => rfl

theorem oor_eq_none_iff {a b : Option String} :
    oor a b = none ↔ a = none ∧ b = none := by
  cases a <;> simp [oor]

theorem alookup_aset (l : List (String × String)) (k v q) :
    alookup (aset l k v) q = if q = k then some v else alookup l q := by
  induction l with
  | nil =>
    by_cases h : q = k <;> simp [aset, alookup, h]
  | cons kv rest ih =>
    obtain ⟨k', v'⟩ := kv
    by_cases hk : k' = k
    · subst hk
      by_cases hq : q = k' <;> simp [aset, alookup, hq]
    · by_cases hq : q = k'
      · subst hq
        simp [aset, alookup, hk, Ne.symm hk]
      · simp [aset, alookup, hk, hq, ih]

theorem tlook_aset (l : List (String × String)) (k v q) :
    tlook (aset l k v) q =
      if q = k then (if v = "" then none else some v) else tlook l q := by
  rw [tlook, alookup_aset]
  by_cases h : q = k
  · rw [if_pos h, if_pos h]
  · rw [if_neg h, if_neg h, tlook]

theorem tlook_eq_if (l : List (String × String)) (q : String) {w : String}
    (ha : alookup l q = some w) :
    tlook l q = if w = "" then none else some w := by
  rw [tlook, ha]

theorem tlook_eq_none (l : List (String × String)) (q : String)
    (ha : alookup l q = none) : tlook l q = none := by
  rw [tlook, ha]

theorem tlook_some_ne_empty {l : List (String × String)} {q v : String}
    (h : tlook l q = some v) : v ≠ "" := by
  rcases ha : alookup l q with _ | w
  · rw [tlook_eq_none l q ha] at h
    exact absurd h (by simp)
  · rw [tlook_eq_if l q ha] at h
    by_cases hw : w = ""
    · rw [if_pos hw] at h; exact absurd h (by simp)
    · rw [if_neg hw] at h
      rcases Option.some.injEq .. ▸ h with rfl
      exact hw

theorem firstTruthyKeys_ne_empty {b : List (String × String)}
    {as : List String} {v : String} (h : firstTruthyKeys b as = some v) :
    v ≠ "" := by
  induction as with
  | nil => exact absurd h (by simp [firstTruthyKeys])
  | cons a rest ih =>
    rw [firstTruthyKeys] at h
    rcases ht : tlook b (toKey a) with _ | w
    · rw [ht] at h; exact ih h
    · rw [ht] at h
      rcases Option.some.injEq .. ▸ h with rfl
      exact tlook_some_ne_empty ht

theorem firstTruthyKeys_congr {b1 b2 : List (String × String)}
    {as : List String}
    (h : ∀ a ∈ as, tlook b1 (toKey a) = tlook b2 (toKey a)) :
    firstTruthyKeys b1 as = firstTruthyKeys b2 as := by
  induction as with
  | nil => rfl
  | cons a rest ih =>
    rw [firstTruthyKeys, firstTruthyKeys, h a (List.mem_cons_self a rest),
      ih (by intro x hx; exact h x (List.mem_cons_of_mem a hx))]

theorem firstTruthyKeys_eq_none_iff {b : List (String × String)}
    {as : List String} :
    firstTruthyKeys b as = none ↔ ∀ a ∈ as, tlook b (toKey a) = none := by
  induction as with
  | nil => simp [firstTruthyKeys]
  | cons a rest ih =>
    rw [firstTruthyKeys]
    rcases ht : tlook b (toKey a) with _ | w
    · simp only [ih]
      constructor
      · intro h x hx
        rcases List.mem_cons.mp hx with rfl | hx'
        · exact ht
        · exact h x hx'
      · intro h x hx
        exact h x (List.mem_cons_of_mem a hx)
    · constructor
      · intro h; exact absurd h (by simp)
      · intro h
        have := h a (List.mem_cons_self a rest)
        rw [ht] at this
        exact absurd this (by simp)

/-! ### Frame and characterization lemmas for the two passes -/

theorem p2Group_tlook_ne {b : List (String × String)} {c : String}
    {as : List String} {q : String} (h : q ≠ toKey c) :
    tlook (p2Group b c as) q = tlook b q := by
  rw [p2Group]
  rcases tlook b (toKey c) with _ | v
  · rcases firstTruthyKeys b as with _ | w
    · rfl
    · rw [tlook_aset, if_neg h]
  · rfl

theorem p2Group_tlook_self (b : List (String × String)) (c : String)
    (as : List String) :
    tlook (p2Group b c as) (toKey c) =
      oor (tlook b (toKey c)) (firstTruthyKeys b as) := by
  rw [p2Group]
  rcases hc : tlook b (toKey c) with _ | v
  · rcases hf : firstTruthyKeys b as with _ | w
    · show tlook b (toKey c) = none
      exact hc
    · show tlook (aset b (toKey c) w) (toKey c) = some w
      rw [tlook_aset, if_pos rfl, if_neg (firstTruthyKeys_ne_empty hf)]
  · show tlook b (toKey c) = some v
    exact hc

theorem p2Group_id {b : List (String × String)} {c : String}
    {as : List String}
    (h : tlook b (toKey c) ≠ none ∨ firstTruthyKeys b as = none) :
    p2Group b c as = b := by
  rw [p2Group]
  rcases hc : tlook b (toKey c) with _ | v
  · rcases h with h | h
    · exact absurd hc h
    · rw [h]
  · rfl

theorem p3Step_tlook_ne {v : String} {b : List (String × String)}
    {a q : String} (h : q ≠ toKey a) :
    tlook (p3Step v b a) q = tlook b q := by
  rw [p3Step]
  rcases tlook b (toKey a) with _ | w
  · rw [tlook_aset, if_neg h]
  · rfl

theorem p3Fold_tlook_ne {v : String} {q : String} :
    ∀ (as : List String) (b : List (String × String)),
      (∀ a ∈ as, q ≠ toKey a) →
      tlook (as.foldl (p3Step v) b) q = tlook b q := by
  intro as
  induction as with
  | nil => intro b _; rfl
  | cons a rest ih =>
    intro b h
    rw [List.foldl_cons,
      ih (p3Step v b a) (by intro x hx; exact h x (List.mem_cons_of_mem a hx)),
      p3Step_tlook_ne (h a (List.mem_cons_self a rest))]

theorem p3Group_tlook_notMem {b : List (String × String)} {c : String}
    {as : List String} {q : String} (h : ∀ a ∈ as, q ≠ toKey a) :
    tlook (p3Group b c as) q = tlook b q := by
  rw [p3Group]
  rcases tlook b (toKey c) with _ | v
  · rfl
  · exact p3Fold_tlook_ne as b h

/-- The alias-fill fold never disturbs a slot that is already truthy. -/
theorem p3Fold_tlook_preserve {v : String} {q w : String} :
    ∀ (as : List String) (b : List (String × String)),
      tlook b q = some w →
      tlook (as.foldl (p3Step v) b) q = some w := by
  intro as
  induction as with
  | nil => intro b h; exact h
  | cons x rest ih =>
    intro b h
    rw [List.foldl_cons]
    refine ih (p3Step v b x) ?_
    by_cases hx : q = toKey x
    · rw [p3Step, ← hx, h]
      exact h
    · rw [p3Step_tlook_ne hx]
      exact h

/-- After one alias-fill fold with value `v`, the slot of any listed
alias holds its old truthy value or else `v`. -/
theorem p3Fold_tlook_mem {v : String} (hv : v ≠ "") {a : String} :
    ∀ (as : List String) (b : List (String × String)), a ∈ as →
      tlook (as.foldl (p3Step v) b) (toKey a) =
        oor (tlook b (toKey a)) (some v) := by
  intro as
  induction as with
  | nil => intro b h; exact absurd h (List.not_mem_nil a)
  | cons x rest ih =>
    intro b h
    rw [List.foldl_cons]
    by_cases hx : toKey a = toKey x
    · have hstep : tlook (p3Step v b x) (toKey a) =
          oor (tlook b (toKey a)) (some v) := by
        rw [p3Step, hx]
        rcases ht : tlook b (toKey x) with _ | w
        · show tlook (aset b (toKey x) v) (toKey x) = oor none (some v)
          rw [tlook_aset, if_pos rfl, if_neg hv]
          rfl
        · show tlook b (toKey x) = oor (some w) (some v)
          rw [ht]
          rfl
      obtain ⟨w, hw⟩ : ∃ w, oor (tlook b (toKey a)) (some v) = some w := by
        rcases tlook b (toKey a) with _ | w
        · exact ⟨v, rfl⟩
        · exact ⟨w, rfl⟩
      rw [p3Fold_tlook_preserve rest (p3Step v b x) (hstep.trans hw), hw]
    · rcases List.mem_cons.mp h with rfl | hmem
      · exact absurd rfl hx
      · rw [ih (p3Step v b x) hmem, p3Step_tlook_ne hx]

/-- The slot of a listed alias after one group of the third pass. -/
theorem p3Group_tlook_alias {b : List (String × String)} {c : String}
    {as : List String} {a : String} (ha : a ∈ as) :
    tlook (p3Group b c as) (toKey a) =
      oor (tlook b (toKey a)) (tlook b (toKey c)) := by
  rw [p3Group]
  rcases hc : tlook b (toKey c) with _ | v
  · rcases tlook b (toKey a) with _ | w <;> rfl
  · exact p3Fold_tlook_mem (tlook_some_ne_empty hc) as b ha

theorem p3Group_id {b : List (String × String)} {c : String}
    {as : List String}
    (h : tlook b (toKey c) = none ∨ ∀ a ∈ as, tlook b (toKey a) ≠ none) :
    p3Group b c as = b := by
  rw [p3Group]
  rcases hc : tlook b (toKey c) with _ | v
  · rfl
  · rcases h with h | h
    · rw [hc] at h; exact absurd h (by simp)
    · show List.foldl (p3Step v) b as = b
      clear hc
      induction as with
      | nil => rfl
      | cons x rest ih =>
        rw [List.foldl_cons]
        have hx : p3Step v b x = b := by
          rw [p3Step]
          rcases ht : tlook b (toKey x) with _ | w
          · exact absurd ht (h x (List.mem_cons_self x rest))
          · rfl
        rw [hx]
        exact ih (by intro y hy; exact h y (List.mem_cons_of_mem x hy))

/-! ### Run-level lemmas -/

theorem p2run_append (g1 g2 : List (String × List String))
    (b : List (String × String)) :
    p2run (g1 ++ g2) b = p2run g2 (p2run g1 b) :=
  List.foldl_append ..

theorem p3run_append (g1 g2 : List (String × List String))
    (b : List (String × String)) :
    p3run (g1 ++ g2) b = p3run g2 (p3run g1 b) :=
  List.foldl_append ..

theorem p2run_tlook_frame {q : String} :
    ∀ (gs : List (String × List String)) (b : List (String × String)),
      (∀ g ∈ gs, q ≠ toKey g.1) →
      tlook (p2run gs b) q = tlook b q := by
  intro gs
  induction gs with
  | nil => intro b _; rfl
  | cons g rest ih =>
    intro b h
    show tlook (p2run rest (p2Group b g.1 g.2)) q = tlook b q
    rw [ih (p2Group b g.1 g.2)
        (by intro x hx; exact h x (List.mem_cons_of_mem g hx)),
      p2Group_tlook_ne (h g (List.mem_cons_self g rest))]

theorem p3run_tlook_frame {q : String} :
    ∀ (gs : List (String × List String)) (b : List (String × String)),
      (∀ g ∈ gs, ∀ a ∈ g.2, q ≠ toKey a) →
      tlook (p3run gs b) q = tlook b q := by
  intro gs
  induction gs with
  | nil => intro b _; rfl
  | cons g rest ih =>
    intro b h
    show tlook (p3run rest (p3Group b g.1 g.2)) q = tlook b q
    rw [ih (p3Group b g.1 g.2)
        (by intro x hx; exact h x (List.mem_cons_of_mem g hx)),
      p3Group_tlook_notMem (h g (List.mem_cons_self g rest))]

theorem p2run_id :
    ∀ (gs : List (String × List String)) (b : List (String × String)),
      (∀ g ∈ gs, tlook b (toKey g.1) ≠ none ∨ firstTruthyKeys b g.2 = none) →
      p2run gs b = b := by
  intro gs
  induction gs with
  | nil => intro b _; rfl
  | cons g rest ih =>
    intro b h
    show p2run rest (p2Group b g.1 g.2) = b
    rw [p2Group_id (h g (List.mem_cons_self g rest))]
    exact ih b (by intro x hx; exact h x (List.mem_cons_of_mem g hx))

theorem p3run_id :
    ∀ (gs : List (String × List String)) (b : List (String × String)),
      (∀ g ∈ gs, tlook b (toKey g.1) = none ∨ ∀ a ∈ g.2, tlook b (toKey a) ≠ none) →
      p3run gs b = b := by
  intro gs
  induction gs with
  | nil => intro b _; rfl
  | cons g rest ih =>
    intro b h
    show p3run rest (p3Group b g.1 g.2) = b
    rw [p3Group_id (h g (List.mem_cons_self g rest))]
    exact ih b (by intro x hx; exact h x (List.mem_cons_of_mem g hx))

/-! ### Characterization of the expander on each alias group -/

theorem p2run_cons (g : String × List String) (gs : List (String × List String))
    (b : List (String × String)) :
    p2run (g :: gs) b = p2run gs (p2Group b g.1 g.2) := rfl

theorem p3run_cons (g : String × List String) (gs : List (String × List String))
    (b : List (String × String)) :
    p3run (g :: gs) b = p3run gs (p3Group b g.1 g.2) := rfl

/-- The full expansion pipeline applied to an arbitrary working map. -/
def expandMap (m : List (String × String)) : List (String × String) :=
  p3run ALIASES (p2run ALIASES m)

theorem buildExpandedVars_eq (vars : List (String × String)) :
    buildExpandedVars vars = expandMap (step1 vars) := rfl

/-- Characterization of an *isolated* alias group: one whose canonical
key is not the canonical or an alias of any other group, and whose
aliases appear nowhere else in the table.  The canonical slot of the
expanded map holds the explicit value if truthy, else the first truthy
alias value; each alias slot holds the explicit value if truthy, else
the canonical slot's resolved value. -/
theorem expandMap_iso (gs1 gs2 : List (String × List String)) (c : String)
    (as : List String)
    (hsplit : ALIASES = gs1 ++ (c, as) :: gs2)
    (hc_nc1 : ∀ g ∈ gs1, toKey c ≠ toKey g.1)
    (hc_nc2 : ∀ g ∈ gs2, toKey c ≠ toKey g.1)
    (hc_na : ∀ g ∈ ALIASES, ∀ a ∈ g.2, toKey c ≠ toKey a)
    (ha_nc : ∀ a ∈ as, ∀ g ∈ ALIASES, toKey a ≠ toKey g.1)
    (ha_only : ∀ a ∈ as, ∀ g ∈ gs1 ++ gs2, ∀ x ∈ g.2, toKey a ≠ toKey x)
    (m : List (String × String)) :
    (tlook (expandMap m) (toKey c) =
      oor (tlook m (toKey c)) (firstTruthyKeys m as)) ∧
    (∀ a ∈ as, tlook (expandMap m) (toKey a) =
      oor (tlook m (toKey a))
        (oor (tlook m (toKey c)) (firstTruthyKeys m as))) := by
  have hsplit2 : p2run ALIASES m =
      p2run gs2 (p2Group (p2run gs1 m) c as) := by
    rw [hsplit, p2run_append, p2run_cons]
  have hP2a : ∀ a ∈ as, tlook (p2run ALIASES m) (toKey a) = tlook m (toKey a) := by
    intro a ha
    refine p2run_tlook_frame ALIASES m ?_
    intro g hg
    exact ha_nc a ha g hg
  have hP2c : tlook (p2run ALIASES m) (toKey c) =
      oor (tlook m (toKey c)) (firstTruthyKeys m as) := by
    rw [hsplit2,
      p2run_tlook_frame gs2 _ hc_nc2,
      p2Group_tlook_self,
      p2run_tlook_frame gs1 m hc_nc1,
      firstTruthyKeys_congr (by
        intro a ha
        refine p2run_tlook_frame gs1 m ?_
        intro g hg
        exact ha_nc a ha g (hsplit ▸ List.mem_append_left _ hg))]
  have hsplit3' : ∀ X, p3run ALIASES X =
      p3run gs2 (p3Group (p3run gs1 X) c as) := by
    intro X
    rw [hsplit, p3run_append, p3run_cons]
  have hsplit3 : expandMap m =
      p3run gs2 (p3Group (p3run gs1 (p2run ALIASES m)) c as) :=
    hsplit3' (p2run ALIASES m)
  have hWc : tlook (p3run gs1 (p2run ALIASES m)) (toKey c) =
      tlook (p2run ALIASES m) (toKey c) := by
    refine p3run_tlook_frame gs1 _ ?_
    intro g hg a hag
    exact hc_na g (hsplit ▸ List.mem_append_left _ hg) a hag
  have hWa : ∀ a ∈ as, tlook (p3run gs1 (p2run ALIASES m)) (toKey a) =
      tlook (p2run ALIASES m) (toKey a) := by
    intro a ha
    refine p3run_tlook_frame gs1 _ ?_
    intro g hg x hx
    exact ha_only a ha g (List.mem_append_left _ hg) x hx
  constructor
  · rw [expandMap]
    rw [p3run_tlook_frame ALIASES _ (by
      intro g hg a hag
      exact hc_na g hg a hag)]
    exact hP2c
  · intro a ha
    rw [hsplit3,
      p3run_tlook_frame gs2 _ (by
        intro g hg x hx
        exact ha_only a ha g (List.mem_append_right _ hg) x hx),
      p3Group_tlook_alias ha,
      hWa a ha, hWc, hP2a a ha, hP2c]

theorem firstTruthyKeys_nil (b : List (String × String)) :
    firstTruthyKeys b [] = none := rfl

theorem firstTruthyKeys_cons (b : List (String × String)) (a : String)
    (rest : List String) :
    firstTruthyKeys b (a :: rest) =
      oor (tlook b (toKey a)) (firstTruthyKeys b rest) := by
  rw [firstTruthyKeys]
  rcases tlook b (toKey a) with _ | v <;> rfl

theorem p2run_nil (b : List (String × String)) : p2run [] b = b := rfl

theorem p3run_nil (b : List (String × String)) : p3run [] b = b := rfl

/-- Membership form of the isolated-group characterization: the split
of the table is derived from membership and `ALIASES`'s nodup-ness. -/
theorem expandMap_iso_mem (c : String) (as : List String)
    (hmem : (c, as) ∈ ALIASES)
    (h1 : ∀ g ∈ ALIASES, g ≠ (c, as) → toKey c ≠ toKey g.1)
    (h2 : ∀ g ∈ ALIASES, ∀ a ∈ g.2, toKey c ≠ toKey a)
    (h3 : ∀ a ∈ as, ∀ g ∈ ALIASES, toKey a ≠ toKey g.1)
    (h4 : ∀ a ∈ as, ∀ g ∈ ALIASES, g ≠ (c, as) → ∀ x ∈ g.2, toKey a ≠ toKey x)
    (m : List (String × String)) :
    (tlook (expandMap m) (toKey c) =
      oor (tlook m (toKey c)) (firstTruthyKeys m as)) ∧
    (∀ a ∈ as, tlook (expandMap m) (toKey a) =
      oor (tlook m (toKey a))
        (oor (tlook m (toKey c)) (firstTruthyKeys m as))) := by
  obtain ⟨gs1, gs2, hsplit⟩ := List.append_of_mem hmem
  have hnd : ALIASES.Nodup := by decide
  rw [hsplit] at hnd
  rcases List.nodup_append.mp hnd with ⟨-, hnd2, hdisj⟩
  have hnot1 : (c, as) ∉ gs1 := by
    intro hx
    exact hdisj hx (List.mem_cons_self _ _)
  have hnot2 : (c, as) ∉ gs2 := (List.nodup_cons.mp hnd2).1
  have hsub1 : ∀ g ∈ gs1, g ∈ ALIASES ∧ g ≠ (c, as) := by
    intro g hg
    refine ⟨hsplit ▸ List.mem_append_left _ hg, ?_⟩
    intro hEq
    exact hnot1 (hEq ▸ hg)
  have hsub2 : ∀ g ∈ gs2, g ∈ ALIASES ∧ g ≠ (c, as) := by
    intro g hg
    refine ⟨hsplit ▸ List.mem_append_right _ (List.mem_cons_of_mem _ hg), ?_⟩
    intro hEq
    exact hnot2 (hEq ▸ hg)
  refine expandMap_iso gs1 gs2 c as hsplit ?_ ?_ h2 h3 ?_ m
  · intro g hg
    exact h1 g (hsub1 g hg).1 (hsub1 g hg).2
  · intro g hg
    exact h1 g (hsub2 g hg).1 (hsub2 g hg).2
  · intro a ha g hg x hx
    rcases List.mem_append.mp hg with hg1 | hg2
    · exact h4 a ha g (hsub1 g hg1).1 (hsub1 g hg1).2 x hx
    · exact h4 a ha g (hsub2 g hg2).1 (hsub2 g hg2).2 x hx

theorem oor_none_right (a : Option String) : oor a none = a := by
  cases a <;> rfl

/-- The first eight groups of `ALIASES` (none of whose keys occur in the
`hoa` cluster). -/
def ALIASES8 : List (String × List String) :=
  [("number of bedrooms", ["bedrooms", "beds"]),
   ("number of bathrooms", ["bathrooms", "baths"]),
   ("unique selling points", ["key features", "features"]),
   ("property type", ["type", "ptype"]),
   ("neighbourhood", ["neighborhood"]),
   ("neighbourhood characteristics", ["neighborhood characteristics"]),
   ("city/town", ["city"]),
   ("year built", ["built year", "yr built"])]

/-- Resolved canonical slot of group 9 (`hoa fee`) after the second
pass. -/
def hoaf1 (m : List (String × String)) : Option String :=
  oor (tlook m (toKey "hoa fee"))
    (oor (tlook m (toKey "hoa")) (tlook m (toKey "hoa fees")))

/-- Resolved slot of `hoa fees` in the expanded map. -/
def hoaF2 (m : List (String × String)) : Option String :=
  oor (oor (tlook m (toKey "hoa fees"))
        (oor (hoaf1 m) (tlook m (toKey "hoa"))))
    (hoaf1 m)

/-- Characterization of the expander on the overlapping
`hoa fee`/`hoa fees`/`hoa` cluster (groups 9 and 10 of the table). -/
theorem expandMap_hoa (m : List (String × String)) :
    tlook (expandMap m) (toKey "hoa fee") = oor (hoaf1 m) (hoaF2 m) ∧
    tlook (expandMap m) (toKey "hoa") =
      oor (oor (tlook m (toKey "hoa")) (hoaf1 m)) (hoaF2 m) ∧
    tlook (expandMap m) (toKey "hoa fees") = hoaF2 m := by
  have hoaSplit : ALIASES = ALIASES8 ++
      ("hoa fee", ["hoa", "hoa fees"]) :: ("hoa fees", ["hoa fee", "hoa"]) :: [] := by
    decide
  have hp2 : ∀ X, p2run ALIASES X =
      p2Group (p2Group (p2run ALIASES8 X) "hoa fee" ["hoa", "hoa fees"])
        "hoa fees" ["hoa fee", "hoa"] := by
    intro X
    rw [hoaSplit, p2run_append, p2run_cons, p2run_cons, p2run_nil]
  have hp3 : ∀ X, p3run ALIASES X =
      p3Group (p3Group (p3run ALIASES8 X) "hoa fee" ["hoa", "hoa fees"])
        "hoa fees" ["hoa fee", "hoa"] := by
    intro X
    rw [hoaSplit, p3run_append, p3run_cons, p3run_cons, p3run_nil]
  have hY8f : tlook (p2run ALIASES8 m) (toKey "hoa fee")
      = tlook m (toKey "hoa fee") := p2run_tlook_frame ALIASES8 m (by decide)
  have hY8h : tlook (p2run ALIASES8 m) (toKey "hoa")
      = tlook m (toKey "hoa") := p2run_tlook_frame ALIASES8 m (by decide)
  have hY8F : tlook (p2run ALIASES8 m) (toKey "hoa fees")
      = tlook m (toKey "hoa fees") := p2run_tlook_frame ALIASES8 m (by decide)
  have hY9f : tlook (p2Group (p2run ALIASES8 m) "hoa fee" ["hoa", "hoa fees"])
      (toKey "hoa fee") = hoaf1 m := by
    rw [p2Group_tlook_self, hY8f, firstTruthyKeys_cons, firstTruthyKeys_cons,
      firstTruthyKeys_nil, hY8h, hY8F, oor_none_right, hoaf1]
  have hY9h : tlook (p2Group (p2run ALIASES8 m) "hoa fee" ["hoa", "hoa fees"])
      (toKey "hoa") = tlook m (toKey "hoa") := by
    rw [p2Group_tlook_ne (by decide), hY8h]
  have hY9F : tlook (p2Group (p2run ALIASES8 m) "hoa fee" ["hoa", "hoa fees"])
      (toKey "hoa fees") = tlook m (toKey "hoa fees") := by
    rw [p2Group_tlook_ne (by decide), hY8F]
  have hY10f : tlook (p2run ALIASES m) (toKey "hoa fee") = hoaf1 m := by
    rw [hp2, p2Group_tlook_ne (by decide), hY9f]
  have hY10h : tlook (p2run ALIASES m) (toKey "hoa") = tlook m (toKey "hoa") := by
    rw [hp2, p2Group_tlook_ne (by decide), hY9h]
  have hY10F : tlook (p2run ALIASES m) (toKey "hoa fees") =
      oor (tlook m (toKey "hoa fees")) (oor (hoaf1 m) (tlook m (toKey "hoa"))) := by
    rw [hp2, p2Group_tlook_self, hY9F, firstTruthyKeys_cons, firstTruthyKeys_cons,
      firstTruthyKeys_nil, hY9f, hY9h, oor_none_right]
  have hW8f : tlook (p3run ALIASES8 (p2run ALIASES m)) (toKey "hoa fee")
      = hoaf1 m := by
    rw [p3run_tlook_frame ALIASES8 _ (by decide), hY10f]
  have hW8h : tlook (p3run ALIASES8 (p2run ALIASES m)) (toKey "hoa")
      = tlook m (toKey "hoa") := by
    rw [p3run_tlook_frame ALIASES8 _ (by decide), hY10h]
  have hW8F : tlook (p3run ALIASES8 (p2run ALIASES m)) (toKey "hoa fees") =
      oor (tlook m (toKey "hoa fees")) (oor (hoaf1 m) (tlook m (toKey "hoa"))) := by
    rw [p3run_tlook_frame ALIASES8 _ (by decide), hY10F]
  have hW9f : tlook (p3Group (p3run ALIASES8 (p2run ALIASES m))
      "hoa fee" ["hoa", "hoa fees"]) (toKey "hoa fee") = hoaf1 m := by
    rw [p3Group_tlook_notMem (by decide), hW8f]
  have hW9h : tlook (p3Group (p3run ALIASES8 (p2run ALIASES m))
      "hoa fee" ["hoa", "hoa fees"]) (toKey "hoa") =
      oor (tlook m (toKey "hoa")) (hoaf1 m) := by
    rw [p3Group_tlook_alias (by decide), hW8h, hW8f]
  have hW9F : tlook (p3Group (p3run ALIASES8 (p2run ALIASES m))
      "hoa fee" ["hoa", "hoa fees"]) (toKey "hoa fees") = hoaF2 m := by
    rw [p3Group_tlook_alias (by decide), hW8F, hW8f, hoaF2]
  have hExp : ∀ q, tlook (expandMap m) q =
      tlook (p3Group (p3Group (p3run ALIASES8 (p2run ALIASES m))
        "hoa fee" ["hoa", "hoa fees"]) "hoa fees" ["hoa fee", "hoa"]) q := by
    intro q
    rw [expandMap, hp3]
  refine ⟨?_, ?_, ?_⟩
  · rw [hExp, p3Group_tlook_alias (by decide), hW9f, hW9F]
  · rw [hExp, p3Group_tlook_alias (by decide), hW9h, hW9F]
  · rw [hExp, p3Group_tlook_notMem (by decide), hW9F]

/-! ### Preservation: the expander never overwrites a truthy slot -/

theorem p2Group_preserves {b : List (String × String)} {c : String}
    {as : List String} {q v : String} (h : tlook b q = some v) :
    tlook (p2Group b c as) q = some v := by
  by_cases hq : q = toKey c
  · subst hq
    rw [p2Group, h]
    exact h
  · rw [p2Group_tlook_ne hq]
    exact h

theorem p3Group_preserves {b : List (String × String)} {c : String}
    {as : List String} {q v : String} (h : tlook b q = some v) :
    tlook (p3Group b c as) q = some v := by
  rw [p3Group]
  rcases hc : tlook b (toKey c) with _ | w
  · exact h
  · exact p3Fold_tlook_preserve as b h

theorem p2run_preserves {q v : String} :
    ∀ (gs : List (String × List String)) (b : List (String × String)),
      tlook b q = some v → tlook (p2run gs b) q = some v := by
  intro gs
  induction gs with
  | nil => intro b h; exact h
  | cons g rest ih =>
    intro b h
    exact ih (p2Group b g.1 g.2) (p2Group_preserves h)

theorem p3run_preserves {q v : String} :
    ∀ (gs : List (String × List String)) (b : List (String × String)),
      tlook b q = some v → tlook (p3run gs b) q = some v := by
  intro gs
  induction gs with
  | nil => intro b h; exact h
  | cons g rest ih =>
    intro b h
    exact ih (p3Group b g.1 g.2) (p3Group_preserves h)

/-- Expansion never overwrites a truthy slot of the working map. -/
theorem expandMap_preserves {q v : String} (m : List (String × String))
    (h : tlook m q = some v) : tlook (expandMap m) q = some v :=
  p3run_preserves ALIASES _ (p2run_preserves ALIASES m h)

/-! ### Option algebra for the characterization formulas -/

/-- `o` is either absent or carries the single value `v`. -/
def okv (v : String) (o : Option String) : Prop :=
  o = none ∨ o = some v

theorem okv_oor {v : String} {a b : Option String}
    (ha : okv v a) (hb : okv v b) : okv v (oor a b) := by
  rcases ha with rfl | rfl
  · rw [oor_none]; exact hb
  · rw [oor_some]; right; rfl

theorem oor_eq_some_right {v : String} {a b : Option String}
    (ha : okv v a) (hb : b = some v) : oor a b = some v := by
  rcases ha with rfl | rfl
  · rw [oor_none]; exact hb
  · rw [oor_some]

theorem okv_firstTruthyKeys {v : String} {m : List (String × String)} :
    ∀ {as : List String}, (∀ a ∈ as, okv v (tlook m (toKey a))) →
      okv v (firstTruthyKeys m as) := by
  intro as
  induction as with
  | nil => intro _; left; rfl
  | cons a rest ih =>
    intro h
    rw [firstTruthyKeys_cons]
    exact okv_oor (h a (List.mem_cons_self a rest))
      (ih (by intro x hx; exact h x (List.mem_cons_of_mem a hx)))

theorem firstTruthyKeys_ne_none_of_mem {m : List (String × String)}
    {as : List String} {a : String} (ha : a ∈ as)
    (h : tlook m (toKey a) ≠ none) : firstTruthyKeys m as ≠ none := by
  intro hnone
  exact h (firstTruthyKeys_eq_none_iff.mp hnone a ha)

theorem okv_resolve {v : String} {o : Option String} (h : okv v o)
    (hne : o ≠ none) : o = some v := by
  rcases h with rfl | rfl
  · exact absurd rfl hne
  · rfl

theorem oor_ne_none_of_right {a b : Option String} (h : b ≠ none) :
    oor a b ≠ none := by
  intro hnone
  exact h (oor_eq_none_iff.mp hnone).2

/-- Group facts for an isolated group, derived from its characterization
equations: if some member is truthy then all members resolve; if all
truthy members share the value `v` then all members resolve to `v`. -/
theorem c1_aux_iso {m : List (String × String)} {c : String}
    {as : List String}
    (hc : tlook (expandMap m) (toKey c) =
      oor (tlook m (toKey c)) (firstTruthyKeys m as))
    (ha : ∀ a ∈ as, tlook (expandMap m) (toKey a) =
      oor (tlook m (toKey a))
        (oor (tlook m (toKey c)) (firstTruthyKeys m as))) :
    ((∃ mem ∈ c :: as, tlook m (toKey mem) ≠ none) →
      ∀ mem ∈ c :: as, tlook (expandMap m) (toKey mem) ≠ none) ∧
    (∀ v, (∃ mem ∈ c :: as, tlook m (toKey mem) = some v) →
      (∀ mem ∈ c :: as, okv v (tlook m (toKey mem))) →
      ∀ mem ∈ c :: as, tlook (expandMap m) (toKey mem) = some v) := by
  constructor
  · rintro ⟨mem0, hmem0, hne0⟩ mem hmem
    have hcore : oor (tlook m (toKey c)) (firstTruthyKeys m as) ≠ none := by
      rcases List.mem_cons.mp hmem0 with rfl | hmem0'
      · intro hnone
        exact hne0 (oor_eq_none_iff.mp hnone).1
      · exact oor_ne_none_of_right
          (firstTruthyKeys_ne_none_of_mem hmem0' hne0)
    rcases List.mem_cons.mp hmem with rfl | hmem'
    · rw [hc]; exact hcore
    · rw [ha mem hmem']
      exact oor_ne_none_of_right hcore
  · rintro v ⟨mem0, hmem0, hval0⟩ hall mem hmem
    have hkv_c : okv v (tlook m (toKey c)) := hall c (List.mem_cons_self c as)
    have hkv_S : okv v (firstTruthyKeys m as) :=
      okv_firstTruthyKeys
        (by intro a haa; exact hall a (List.mem_cons_of_mem c haa))
    have hcore_ne : oor (tlook m (toKey c)) (firstTruthyKeys m as) ≠ none := by
      rcases List.mem_cons.mp hmem0 with rfl | hmem0'
      · intro hnone
        rw [(oor_eq_none_iff.mp hnone).1] at hval0
        exact absurd hval0 (by simp)
      · exact oor_ne_none_of_right (firstTruthyKeys_ne_none_of_mem hmem0'
          (by rw [hval0]; simp))
    have hcore : oor (tlook m (toKey c)) (firstTruthyKeys m as) = some v :=
      okv_resolve (okv_oor hkv_c hkv_S) hcore_ne
    rcases List.mem_cons.mp hmem with rfl | hmem'
    · rw [hc]; exact hcore
    · rw [ha mem hmem']
      exact oor_eq_some_right (hall mem (List.mem_cons_of_mem c hmem')) hcore

/-- Group facts for the overlapping `hoa` cluster. -/
theorem c1_aux_hoa (m : List (String × String)) :
    ((tlook m (toKey "hoa fee") ≠ none ∨ tlook m (toKey "hoa") ≠ none ∨
        tlook m (toKey "hoa fees") ≠ none) →
      tlook (expandMap m) (toKey "hoa fee") ≠ none ∧
      tlook (expandMap m) (toKey "hoa") ≠ none ∧
      tlook (expandMap m) (toKey "hoa fees") ≠ none) ∧
    (∀ v, (tlook m (toKey "hoa fee") = some v ∨
        tlook m (toKey "hoa") = some v ∨ tlook m (toKey "hoa fees") = some v) →
      okv v (tlook m (toKey "hoa fee")) → okv v (tlook m (toKey "hoa")) →
      okv v (tlook m (toKey "hoa fees")) →
      tlook (expandMap m) (toKey "hoa fee") = some v ∧
      tlook (expandMap m) (toKey "hoa") = some v ∧
      tlook (expandMap m) (toKey "hoa fees") = some v) := by
  obtain ⟨hEf, hEh, hEF⟩ := expandMap_hoa m
  constructor
  · intro hex
    have hf1 : hoaf1 m ≠ none := by
      intro hnone
      rw [hoaf1] at hnone
      rcases oor_eq_none_iff.mp hnone with ⟨h1, h2⟩
      rcases oor_eq_none_iff.mp h2 with ⟨h3, h4⟩
      rcases hex with h | h | h
      · exact h h1
      · exact h h3
      · exact h h4
    have hF2 : hoaF2 m ≠ none := by
      intro hnone
      rw [hoaF2] at hnone
      exact hf1 (oor_eq_none_iff.mp hnone).2
    exact ⟨hEf ▸ oor_ne_none_of_right hF2,
      hEh ▸ oor_ne_none_of_right hF2, hEF ▸ hF2⟩
  · intro v hex hkf hkh hkF
    have hf1 : hoaf1 m = some v := by
      refine okv_resolve ?_ ?_
      · rw [hoaf1]
        exact okv_oor hkf (okv_oor hkh hkF)
      · rw [hoaf1]
        intro hnone
        rcases oor_eq_none_iff.mp hnone with ⟨h1, h2⟩
        rcases oor_eq_none_iff.mp h2 with ⟨h3, h4⟩
        rcases hex with h | h | h
        · rw [h] at h1; exact absurd h1 (by simp)
        · rw [h] at h3; exact absurd h3 (by simp)
        · rw [h] at h4; exact absurd h4 (by simp)
    have hF2 : hoaF2 m = some v := by
      rw [hoaF2, hf1]
      exact oor_eq_some_right
        (okv_oor hkF (okv_oor (Or.inr rfl) hkh)) rfl
    refine ⟨?_, ?_, ?_⟩
    · rw [hEf, hf1, oor_some]
    · rw [hEh, hF2]
      exact oor_eq_some_right (okv_oor hkh (Or.inr hf1)) rfl
    · rw [hEF, hF2]

/-! ### Claim C1 -/

/-- C1: For every field-value map and every alias group in the alias
table, if at least one member of the group (the canonical name or any
alias) has a non-empty value in the input map (after normalization and
trimming, i.e. in `step1`), then after expansion (`buildExpandedVars`)
(a) every member of the group resolves to some value, (b) a member that
already had its own non-empty value keeps exactly that value, and
(c) when every valued member carries the same value `v` — in particular
when exactly one member is valued — every member of the group resolves
to that same value `v`. -/
theorem claim_C1 (input : List (String × String)) (c : String)
    (as : List String) (hmem : (c, as) ∈ ALIASES)
    (hex : ∃ mem ∈ c :: as, tlook (step1 input) (toKey mem) ≠ none) :
    (∀ mem ∈ c :: as, tlook (buildExpandedVars input) (toKey mem) ≠ none) ∧
    (∀ mem ∈ c :: as, ∀ v, tlook (step1 input) (toKey mem) = some v →
      tlook (buildExpandedVars input) (toKey mem) = some v) ∧
    (∀ v, (∃ mem ∈ c :: as, tlook (step1 input) (toKey mem) = some v) →
      (∀ mem ∈ c :: as, tlook (step1 input) (toKey mem) = none ∨
        tlook (step1 input) (toKey mem) = some v) →
      ∀ mem ∈ c :: as, tlook (buildExpandedVars input) (toKey mem) = some v) := by
  have hpres : ∀ mem ∈ c :: as, ∀ v,
      tlook (step1 input) (toKey mem) = some v →
      tlook (buildExpandedVars input) (toKey mem) = some v := by
    intro mem _ v hv
    exact expandMap_preserves (step1 input) hv
  fin_cases hmem
  case _ =>
    obtain ⟨hc, ha⟩ := expandMap_iso_mem "number of bedrooms"
      ["bedrooms", "beds"] (by decide) (by decide) (by decide) (by decide)
      (by decide) (step1 input)
    exact ⟨(c1_aux_iso hc ha).1 hex, hpres, (c1_aux_iso hc ha).2⟩
  case _ =>
    obtain ⟨hc, ha⟩ := expandMap_iso_mem "number of bathrooms"
      ["bathrooms", "baths"] (by decide) (by decide) (by decide) (by decide)
      (by decide) (step1 input)
    exact ⟨(c1_aux_iso hc ha).1 hex, hpres, (c1_aux_iso hc ha).2⟩
  case _ =>
    obtain ⟨hc, ha⟩ := expandMap_iso_mem "unique selling points"
      ["key features", "features"] (by decide) (by decide) (by decide)
      (by decide) (by decide) (step1 input)
    exact ⟨(c1_aux_iso hc ha).1 hex, hpres, (c1_aux_iso hc ha).2⟩
  case _ =>
    obtain ⟨hc, ha⟩ := expandMap_iso_mem "property type"
      ["type", "ptype"] (by decide) (by decide) (by decide) (by decide)
      (by decide) (step1 input)
    exact ⟨(c1_aux_iso hc ha).1 hex, hpres, (c1_aux_iso hc ha).2⟩
  case _ =>
    obtain ⟨hc, ha⟩ := expandMap_iso_mem "neighbourhood"
      ["neighborhood"] (by decide) (by decide) (by decide) (by decide)
      (by decide) (step1 input)
    exact ⟨(c1_aux_iso hc ha).1 hex, hpres, (c1_aux_iso hc ha).2⟩
  case _ =>
    obtain ⟨hc, ha⟩ := expandMap_iso_mem "neighbourhood characteristics"
      ["neighborhood characteristics"] (by decide) (by decide) (by decide)
      (by decide) (by decide) (step1 input)
    exact ⟨(c1_aux_iso hc ha).1 hex, hpres, (c1_aux_iso hc ha).2⟩
  case _ =>
    obtain ⟨hc, ha⟩ := expandMap_iso_mem "city/town"
      ["city"] (by decide) (by decide) (by decide) (by decide)
      (by decide) (step1 input)
    exact ⟨(c1_aux_iso hc ha).1 hex, hpres, (c1_aux_iso hc ha).2⟩
  case _ =>
    obtain ⟨hc, ha⟩ := expandMap_iso_mem "year built"
      ["built year", "yr built"] (by decide) (by decide) (by decide)
      (by decide) (by decide) (step1 input)
    exact ⟨(c1_aux_iso hc ha).1 hex, hpres, (c1_aux_iso hc ha).2⟩
  case _ =>
    obtain ⟨haux1, haux2⟩ := c1_aux_hoa (step1 input)
    refine ⟨?_, hpres, ?_⟩
    · obtain ⟨mem0, hmem0, hne0⟩ := hex
      have htriple := haux1 (by
        fin_cases hmem0
        · exact Or.inl hne0
        · exact Or.inr (Or.inl hne0)
        · exact Or.inr (Or.inr hne0))
      intro mem hmem'
      fin_cases hmem'
      · exact htriple.1
      · exact htriple.2.1
      · exact htriple.2.2
    · rintro v ⟨mem0, hmem0, hval0⟩ hall
      have htriple := haux2 v (by
          fin_cases hmem0
          · exact Or.inl hval0
          · exact Or.inr (Or.inl hval0)
          · exact Or.inr (Or.inr hval0))
        (hall "hoa fee" (by decide)) (hall "hoa" (by decide))
        (hall "hoa fees" (by decide))
      intro mem hmem'
      fin_cases hmem'
      · exact htriple.1
      · exact htriple.2.1
      · exact htriple.2.2
  case _ =>
    obtain ⟨haux1, haux2⟩ := c1_aux_hoa (step1 input)
    refine ⟨?_, hpres, ?_⟩
    · obtain ⟨mem0, hmem0, hne0⟩ := hex
      have htriple := haux1 (by
        fin_cases hmem0
        · exact Or.inr (Or.inr hne0)
        · exact Or.inl hne0
        · exact Or.inr (Or.inl hne0))
      intro mem hmem'
      fin_cases hmem'
      · exact htriple.2.2
      · exact htriple.1
      · exact htriple.2.1
    · rintro v ⟨mem0, hmem0, hval0⟩ hall
      have htriple := haux2 v (by
          fin_cases hmem0
          · exact Or.inr (Or.inr hval0)
          · exact Or.inl hval0
          · exact Or.inr (Or.inl hval0))
        (hall "hoa fee" (by decide)) (hall "hoa" (by decide))
        (hall "hoa fees" (by decide))
      intro mem hmem'
      fin_cases hmem'
      · exact htriple.2.2
      · exact htriple.1
      · exact htriple.2.1

/-- Witness for C1 at the spec's example: `{"bedrooms": "3"}` with the
group `number of bedrooms ↦ [bedrooms, beds]` resolves all three keys
to `"3"`. -/
theorem claim_C1_witness :
    tlook (buildExpandedVars [("bedrooms", "3")]) (toKey "number of bedrooms")
      = some "3" ∧
    tlook (buildExpandedVars [("bedrooms", "3")]) (toKey "bedrooms")
      = some "3" ∧
    tlook (buildExpandedVars [("bedrooms", "3")]) (toKey "beds")
      = some "3" := by
  have h := claim_C1 [("bedrooms", "3")] "number of bedrooms"
    ["bedrooms", "beds"] (by decide)
    ⟨"bedrooms", by decide, by decide⟩
  have huniform := h.2.2 "3" ⟨"bedrooms", by decide, by decide⟩ (by decide)
  exact ⟨huniform "number of bedrooms" (by decide),
    huniform "bedrooms" (by decide), huniform "beds" (by decide)⟩

/-! ### Claim C6 -/

theorem c6_aux_hoa9 {m : List (String × String)}
    (hnone : tlook m (toKey "hoa fee") = none) :
    tlook (expandMap m) (toKey "hoa fee") =
      firstTruthyKeys m ["hoa", "hoa fees"] := by
  obtain ⟨hEf, -, -⟩ := expandMap_hoa m
  rw [hEf, hoaF2, hoaf1, firstTruthyKeys_cons, firstTruthyKeys_cons,
    firstTruthyKeys_nil, hnone]
  rcases tlook m (toKey "hoa") with _ | x <;>
    rcases tlook m (toKey "hoa fees") with _ | y <;> rfl

theorem c6_aux_hoa10 {m : List (String × String)}
    (hnone : tlook m (toKey "hoa fees") = none) :
    tlook (expandMap m) (toKey "hoa fees") =
      firstTruthyKeys m ["hoa fee", "hoa"] := by
  obtain ⟨-, -, hEF⟩ := expandMap_hoa m
  rw [hEF, hoaF2, hoaf1, firstTruthyKeys_cons, firstTruthyKeys_cons,
    firstTruthyKeys_nil, hnone]
  rcases tlook m (toKey "hoa fee") with _ | x <;>
    rcases tlook m (toKey "hoa") with _ | y <;> rfl

/-- C6: expansion never overwrites an explicit value; an empty canonical
slot is filled from the first alias in the table's declared order that
has a value; and on input `{"bedrooms": "3", "beds": "4"}`, the keys
`bedrooms` and `beds` keep their own values while `number of bedrooms`
resolves to `"3"`, the value of the first declared alias. -/
theorem claim_C6 :
    (∀ (input : List (String × String)) (k v : String),
      tlook (step1 input) k = some v →
      tlook (buildExpandedVars input) k = some v) ∧
    (∀ (input : List (String × String)) (c : String) (as : List String),
      (c, as) ∈ ALIASES →
      tlook (step1 input) (toKey c) = none →
      tlook (buildExpandedVars input) (toKey c) =
        firstTruthyKeys (step1 input) as) ∧
    (tlook (buildExpandedVars [("bedrooms", "3"), ("beds", "4")]) "bedrooms"
        = some "3" ∧
      tlook (buildExpandedVars [("bedrooms", "3"), ("beds", "4")]) "beds"
        = some "4" ∧
      tlook (buildExpandedVars [("bedrooms", "3"), ("beds", "4")])
        "number of bedrooms" = some "3") := by
  refine ⟨?_, ?_, by decide, by decide, by decide⟩
  · intro input k v hv
    exact expandMap_preserves (step1 input) hv
  · intro input c as hmem hnone
    fin_cases hmem
    case _ =>
      obtain ⟨hc, -⟩ := expandMap_iso_mem "number of bedrooms"
        ["bedrooms", "beds"] (by decide) (by decide) (by decide) (by decide)
        (by decide) (step1 input)
      rw [show buildExpandedVars input = expandMap (step1 input) from rfl,
        hc, hnone, oor_none]
    case _ =>
      obtain ⟨hc, -⟩ := expandMap_iso_mem "number of bathrooms"
        ["bathrooms", "baths"] (by decide) (by decide) (by decide) (by decide)
        (by decide) (step1 input)
      rw [show buildExpandedVars input = expandMap (step1 input) from rfl,
        hc, hnone, oor_none]
    case _ =>
      obtain ⟨hc, -⟩ := expandMap_iso_mem "unique selling points"
        ["key features", "features"] (by decide) (by decide) (by decide)
        (by decide) (by decide) (step1 input)
      rw [show buildExpandedVars input = expandMap (step1 input) from rfl,
        hc, hnone, oor_none]
    case _ =>
      obtain ⟨hc, -⟩ := expandMap_iso_mem "property type"
        ["type", "ptype"] (by decide) (by decide) (by decide) (by decide)
        (by decide) (step1 input)
      rw [show buildExpandedVars input = expandMap (step1 input) from rfl,
        hc, hnone, oor_none]
    case _ =>
      obtain ⟨hc, -⟩ := expandMap_iso_mem "neighbourhood"
        ["neighborhood"] (by decide) (by decide) (by decide) (by decide)
        (by decide) (step1 input)
      rw [show buildExpandedVars input = expandMap (step1 input) from rfl,
        hc, hnone, oor_none]
    case _ =>
      obtain ⟨hc, -⟩ := expandMap_iso_mem "neighbourhood characteristics"
        ["neighborhood characteristics"] (by decide) (by decide) (by decide)
        (by decide) (by decide) (step1 input)
      rw [show buildExpandedVars input = expandMap (step1 input) from rfl,
        hc, hnone, oor_none]
    case _ =>
      obtain ⟨hc, -⟩ := expandMap_iso_mem "city/town"
        ["city"] (by decide) (by decide) (by decide) (by decide)
        (by decide) (step1 input)
      rw [show buildExpandedVars input = expandMap (step1 input) from rfl,
        hc, hnone, oor_none]
    case _ =>
      obtain ⟨hc, -⟩ := expandMap_iso_mem "year built"
        ["built year", "yr built"] (by decide) (by decide) (by decide)
        (by decide) (by decide) (step1 input)
      rw [show buildExpandedVars input = expandMap (step1 input) from rfl,
        hc, hnone, oor_none]
    case _ =>
      exact c6_aux_hoa9 hnone
    case _ =>
      exact c6_aux_hoa10 hnone

/-- Witness for C6: a kept explicit value and a canonical slot filled
from its first valued alias, at concrete inputs. -/
theorem claim_C6_witness :
    tlook (buildExpandedVars [("beds", "4")]) "beds" = some "4" ∧
    tlook (buildExpandedVars [("city", "Miami")]) (toKey "city/town") =
      firstTruthyKeys (step1 [("city", "Miami")]) ["city"] := by
  constructor
  · exact claim_C6.1 [("beds", "4")] "beds" "4" (by decide)
  · exact claim_C6.2.1 [("city", "Miami")] "city/town" ["city"]
      (by decide) (by decide)

/-! ### Shape invariants of the expanded map (towards idempotence) -/

/-- An entry of the working map as the expander creates them: the key is
normalization-fixed, the value is trim-fixed and non-empty. -/
def GoodEntry (kv : String × String) : Prop :=
  toKey kv.1 = kv.1 ∧ jsTrim kv.2 = kv.2 ∧ kv.2 ≠ ""

def GoodList (l : List (String × String)) : Prop :=
  (∀ kv ∈ l, GoodEntry kv) ∧ (l.map Prod.fst).Nodup

theorem alookup_eq_none_iff {l : List (String × String)} {q : String} :
    alookup l q = none ↔ q ∉ l.map Prod.fst := by
  induction l with
  | nil => simp [alookup]
  | cons kv rest ih =>
    obtain ⟨k, v⟩ := kv
    by_cases h : q = k
    · subst h
      simp [alookup]
    · simp [alookup, h, ih]

theorem alookup_mem {l : List (String × String)} {q v : String}
    (h : alookup l q = some v) : (q, v) ∈ l := by
  induction l with
  | nil => exact absurd h (by simp [alookup])
  | cons kv rest ih =>
    obtain ⟨k, w⟩ := kv
    by_cases hq : q = k
    · subst hq
      rw [alookup, if_pos rfl] at h
      rcases Option.some.injEq .. ▸ h with rfl
      exact List.mem_cons_self _ _
    · rw [alookup, if_neg hq] at h
      exact List.mem_cons_of_mem _ (ih h)

theorem tlook_some_alookup {l : List (String × String)} {q v : String}
    (h : tlook l q = some v) : alookup l q = some v := by
  rcases ha : alookup l q with _ | w
  · rw [tlook_eq_none l q ha] at h
    exact absurd h (by simp)
  · rw [tlook_eq_if l q ha] at h
    by_cases hw : w = ""
    · rw [if_pos hw] at h
      exact absurd h (by simp)
    · rw [if_neg hw] at h
      exact h

theorem tlook_val_good {l : List (String × String)} {q v : String}
    (hg : GoodList l) (h : tlook l q = some v) :
    jsTrim v = v ∧ v ≠ "" := by
  have hmem := alookup_mem (tlook_some_alookup h)
  exact ⟨(hg.1 (q, v) hmem).2.1, (hg.1 (q, v) hmem).2.2⟩

theorem firstTruthyKeys_val_good {b : List (String × String)}
    {as : List String} {v : String} (hg : GoodList b)
    (h : firstTruthyKeys b as = some v) : jsTrim v = v ∧ v ≠ "" := by
  induction as with
  | nil => exact absurd h (by simp [firstTruthyKeys])
  | cons a rest ih =>
    rw [firstTruthyKeys] at h
    rcases ht : tlook b (toKey a) with _ | w
    · rw [ht] at h
      exact ih h
    · rw [ht] at h
      rcases Option.some.injEq .. ▸ h with rfl
      exact tlook_val_good hg ht

theorem keys_aset (l : List (String × String)) (k v : String) :
    (aset l k v).map Prod.fst =
      if alookup l k = none then l.map Prod.fst ++ [k] else l.map Prod.fst := by
  induction l with
  | nil => simp [aset, alookup]
  | cons kv rest ih =>
    obtain ⟨k', v'⟩ := kv
    by_cases h : k' = k
    · subst h
      simp [aset, alookup]
    · have h' : ¬ k = k' := fun hEq => h hEq.symm
      simp only [aset, if_neg h, List.map_cons, alookup, if_neg h', ih]
      by_cases ha : alookup rest k = none
      · rw [if_pos ha, if_pos ha]
        rfl
      · rw [if_neg ha, if_neg ha]

theorem mem_aset {l : List (String × String)} {k v : String} {kv} :
    kv ∈ aset l k v → kv = (k, v) ∨ kv ∈ l := by
  induction l with
  | nil =>
    intro h
    rcases List.mem_singleton.mp h with rfl
    exact Or.inl rfl
  | cons kv' rest ih =>
    obtain ⟨k', v'⟩ := kv'
    intro h
    by_cases hk : k' = k
    · subst hk
      rw [aset, if_pos rfl] at h
      rcases List.mem_cons.mp h with rfl | h'
      · exact Or.inl rfl
      · exact Or.inr (List.mem_cons_of_mem _ h')
    · rw [aset, if_neg hk] at h
      rcases List.mem_cons.mp h with rfl | h'
      · exact Or.inr (List.mem_cons_self _ _)
      · rcases ih h' with h'' | h''
        · exact Or.inl h''
        · exact Or.inr (List.mem_cons_of_mem _ h'')

theorem aset_good {l : List (String × String)} {k v : String}
    (hg : GoodList l) (hk : toKey k = k) (hv : jsTrim v = v) (hne : v ≠ "") :
    GoodList (aset l k v) := by
  constructor
  · intro kv hkv
    rcases mem_aset hkv with rfl | h
    · exact ⟨hk, hv, hne⟩
    · exact hg.1 kv h
  · rw [keys_aset]
    by_cases ha : alookup l k = none
    · rw [if_pos ha]
      rw [List.nodup_append]
      refine ⟨hg.2, List.nodup_singleton k, ?_⟩
      intro x hx hx'
      rcases List.mem_singleton.mp hx' with rfl
      exact alookup_eq_none_iff.mp ha hx
    · rw [if_neg ha]
      exact hg.2

theorem step1_good (vars : List (String × String)) : GoodList (step1 vars) := by
  have haux : ∀ (vs : List (String × String)) (acc : List (String × String)),
      GoodList acc →
      GoodList (vs.foldl (fun acc kv =>
        let v := jsTrim kv.2
        if v = "" then acc else aset acc (toKey kv.1) v) acc) := by
    intro vs
    induction vs with
    | nil => intro acc h; exact h
    | cons kv rest ih =>
      intro acc h
      rw [List.foldl_cons]
      by_cases hv : jsTrim kv.2 = ""
      · simp only [hv, if_pos]
        exact ih acc h
      · simp only [if_neg hv]
        exact ih _ (aset_good h (toKey_idem kv.1) (jsTrim_idem kv.2) hv)
  exact haux vars [] ⟨by intro kv h; exact absurd h (List.not_mem_nil kv),
    List.nodup_nil⟩

theorem p2Group_good {b : List (String × String)} {c : String}
    {as : List String} (hg : GoodList b) : GoodList (p2Group b c as) := by
  rw [p2Group]
  rcases tlook b (toKey c) with _ | v
  · rcases hf : firstTruthyKeys b as with _ | w
    · exact hg
    · exact aset_good hg (toKey_idem c) (firstTruthyKeys_val_good hg hf).1
        (firstTruthyKeys_val_good hg hf).2
  · exact hg

theorem p3Group_good {b : List (String × String)} {c : String}
    {as : List String} (hg : GoodList b) : GoodList (p3Group b c as) := by
  rw [p3Group]
  rcases hc : tlook b (toKey c) with _ | v
  · exact hg
  · have hval := tlook_val_good hg hc
    clear hc
    show GoodList (List.foldl (p3Step v) b as)
    induction as generalizing b with
    | nil => exact hg
    | cons a rest ih =>
      rw [List.foldl_cons]
      refine ih ?_
      rw [p3Step]
      rcases tlook b (toKey a) with _ | w
      · exact aset_good hg (toKey_idem a) hval.1 hval.2
      · exact hg

theorem p2run_good :
    ∀ (gs : List (String × List String)) {b : List (String × String)},
      GoodList b → GoodList (p2run gs b) := by
  intro gs
  induction gs with
  | nil => intro b h; exact h
  | cons g rest ih =>
    intro b h
    exact ih (p2Group_good h)

theorem p3run_good :
    ∀ (gs : List (String × List String)) {b : List (String × String)},
      GoodList b → GoodList (p3run gs b) := by
  intro gs
  induction gs with
  | nil => intro b h; exact h
  | cons g rest ih =>
    intro b h
    exact ih (p3Group_good h)

theorem buildExpandedVars_good (vars : List (String × String)) :
    GoodList (buildExpandedVars vars) :=
  p3run_good ALIASES (p2run_good ALIASES (step1_good vars))

theorem aset_append_of_not_mem {l : List (String × String)} {k : String}
    (h : k ∉ l.map Prod.fst) (v : String) : aset l k v = l ++ [(k, v)] := by
  induction l with
  | nil => rfl
  | cons kv rest ih =>
    obtain ⟨k', v'⟩ := kv
    have hk : k' ≠ k := by
      intro hEq
      exact h (by rw [hEq]; exact List.mem_cons_self k _)
    rw [aset, if_neg hk, List.cons_append,
      ih (by intro hmem; exact h (List.mem_cons_of_mem k' hmem))]

/-- On a map the expander has already produced, the first loop of the
expander is the identity. -/
theorem step1_id {l : List (String × String)} (hg : GoodList l) :
    step1 l = l := by
  have haux : ∀ (vs acc : List (String × String)),
      (∀ kv ∈ vs, GoodEntry kv) → ((vs.map Prod.fst).Nodup) →
      (∀ kv ∈ vs, kv.1 ∉ acc.map Prod.fst) →
      (vs.foldl (fun acc kv =>
        let v := jsTrim kv.2
        if v = "" then acc else aset acc (toKey kv.1) v) acc) = acc ++ vs := by
    intro vs
    induction vs with
    | nil => intro acc _ _ _; simp
    | cons kv rest ih =>
      intro acc hgood hnd hdisj
      obtain ⟨k, v⟩ := kv
      have hnd' : (k :: rest.map Prod.fst).Nodup := hnd
      have hge := hgood (k, v) (List.mem_cons_self _ _)
      rw [List.foldl_cons]
      simp only [hge.2.1, if_neg hge.2.2, hge.1]
      rw [aset_append_of_not_mem (hdisj (k, v) (List.mem_cons_self _ _)) v]
      rw [ih (acc ++ [(k, v)])
        (by intro kv h; exact hgood kv (List.mem_cons_of_mem _ h))
        (List.nodup_cons.mp hnd').2
        ?_]
      · simp
      · intro kv h
        rw [List.map_append]
        intro hmem
        rcases List.mem_append.mp hmem with h1 | h2
        · exact hdisj kv (List.mem_cons_of_mem _ h) h1
        · have hEq : kv.1 = k := List.mem_singleton.mp h2
          refine (List.nodup_cons.mp hnd').1 ?_
          rw [← hEq]
          exact List.mem_map_of_mem Prod.fst h
  show l.foldl (fun acc kv =>
      let v := jsTrim kv.2
      if v = "" then acc else aset acc (toKey kv.1) v) [] = l
  rw [haux l [] hg.1 hg.2 (by intro kv _; simp)]
  simp

/-! ### Saturation of the expanded map: both passes are identities on it -/

theorem sat_iso {m : List (String × String)} {c : String} {as : List String}
    (hc : tlook (expandMap m) (toKey c) =
      oor (tlook m (toKey c)) (firstTruthyKeys m as))
    (ha : ∀ a ∈ as, tlook (expandMap m) (toKey a) =
      oor (tlook m (toKey a))
        (oor (tlook m (toKey c)) (firstTruthyKeys m as))) :
    (tlook (expandMap m) (toKey c) ≠ none ∨
      firstTruthyKeys (expandMap m) as = none) ∧
    (tlook (expandMap m) (toKey c) = none ∨
      ∀ a ∈ as, tlook (expandMap m) (toKey a) ≠ none) := by
  by_cases h : tlook (expandMap m) (toKey c) = none
  · have hcore : oor (tlook m (toKey c)) (firstTruthyKeys m as) = none :=
      hc ▸ h
    have hS : firstTruthyKeys m as = none := (oor_eq_none_iff.mp hcore).2
    constructor
    · right
      rw [firstTruthyKeys_eq_none_iff]
      intro a haa
      rw [ha a haa, firstTruthyKeys_eq_none_iff.mp hS a haa, oor_none, hcore]
    · left
      exact h
  · constructor
    · left
      exact h
    · right
      intro a haa
      rw [ha a haa]
      refine oor_ne_none_of_right ?_
      rw [← hc]
      exact h

theorem sat_hoa (m : List (String × String)) :
    ((tlook (expandMap m) (toKey "hoa fee") ≠ none ∨
        firstTruthyKeys (expandMap m) ["hoa", "hoa fees"] = none) ∧
      (tlook (expandMap m) (toKey "hoa fee") = none ∨
        ∀ a ∈ ["hoa", "hoa fees"], tlook (expandMap m) (toKey a) ≠ none)) ∧
    ((tlook (expandMap m) (toKey "hoa fees") ≠ none ∨
        firstTruthyKeys (expandMap m) ["hoa fee", "hoa"] = none) ∧
      (tlook (expandMap m) (toKey "hoa fees") = none ∨
        ∀ a ∈ ["hoa fee", "hoa"], tlook (expandMap m) (toKey a) ≠ none)) := by
  obtain ⟨hEf, hEh, hEF⟩ := expandMap_hoa m
  by_cases hF2 : hoaF2 m = none
  · have hf1 : hoaf1 m = none := by
      rw [hoaF2] at hF2
      exact (oor_eq_none_iff.mp hF2).2
    have hbs := oor_eq_none_iff.mp
      (show oor (tlook m (toKey "hoa fee"))
          (oor (tlook m (toKey "hoa")) (tlook m (toKey "hoa fees"))) = none
        from hf1)
    have hEf0 : tlook (expandMap m) (toKey "hoa fee") = none := by
      rw [hEf, hf1, hF2]
      rfl
    have hEh0 : tlook (expandMap m) (toKey "hoa") = none := by
      rw [hEh, hf1, hF2, (oor_eq_none_iff.mp hbs.2).1]
      rfl
    have hEF0 : tlook (expandMap m) (toKey "hoa fees") = none := by
      rw [hEF, hF2]
    refine ⟨⟨Or.inr ?_, Or.inl hEf0⟩, ⟨Or.inr ?_, Or.inl hEF0⟩⟩
    · rw [firstTruthyKeys_eq_none_iff]
      intro a haa
      fin_cases haa
      · exact hEh0
      · exact hEF0
    · rw [firstTruthyKeys_eq_none_iff]
      intro a haa
      fin_cases haa
      · exact hEf0
      · exact hEh0
  · have hEfne : tlook (expandMap m) (toKey "hoa fee") ≠ none := by
      rw [hEf]
      exact oor_ne_none_of_right hF2
    have hEhne : tlook (expandMap m) (toKey "hoa") ≠ none := by
      rw [hEh]
      exact oor_ne_none_of_right hF2
    have hEFne : tlook (expandMap m) (toKey "hoa fees") ≠ none := by
      rw [hEF]
      exact hF2
    refine ⟨⟨Or.inl hEfne, Or.inr ?_⟩, ⟨Or.inl hEFne, Or.inr ?_⟩⟩
    · intro a haa
      fin_cases haa
      · exact hEhne
      · exact hEFne
    · intro a haa
      fin_cases haa
      · exact hEfne
      · exact hEhne

/-! ### Claim C5 -/

/-- C5: `buildExpandedVars` is idempotent — expanding the output of an
expansion, reinterpreted as an input map, returns that output literally
(hence the same map). -/
theorem claim_C5 (m : List (String × String)) :
    buildExpandedVars (buildExpandedVars m) = buildExpandedVars m := by
  have hg := buildExpandedVars_good m
  have hsat : ∀ g ∈ ALIASES,
      ((tlook (expandMap (step1 m)) (toKey g.1) ≠ none ∨
          firstTruthyKeys (expandMap (step1 m)) g.2 = none) ∧
        (tlook (expandMap (step1 m)) (toKey g.1) = none ∨
          ∀ a ∈ g.2, tlook (expandMap (step1 m)) (toKey a) ≠ none)) := by
    intro g hmem
    fin_cases hmem
    case _ =>
      obtain ⟨hc, ha⟩ := expandMap_iso_mem "number of bedrooms"
        ["bedrooms", "beds"] (by decide) (by decide) (by decide) (by decide)
        (by decide) (step1 m)
      exact sat_iso hc ha
    case _ =>
      obtain ⟨hc, ha⟩ := expandMap_iso_mem "number of bathrooms"
        ["bathrooms", "baths"] (by decide) (by decide) (by decide) (by decide)
        (by decide) (step1 m)
      exact sat_iso hc ha
    case _ =>
      obtain ⟨hc, ha⟩ := expandMap_iso_mem "unique selling points"
        ["key features", "features"] (by decide) (by decide) (by decide)
        (by decide) (by decide) (step1 m)
      exact sat_iso hc ha
    case _ =>
      obtain ⟨hc, ha⟩ := expandMap_iso_mem "property type"
        ["type", "ptype"] (by decide) (by decide) (by decide) (by decide)
        (by decide) (step1 m)
      exact sat_iso hc ha
    case _ =>
      obtain ⟨hc, ha⟩ := expandMap_iso_mem "neighbourhood"
        ["neighborhood"] (by decide) (by decide) (by decide) (by decide)
        (by decide) (step1 m)
      exact sat_iso hc ha
    case _ =>
      obtain ⟨hc, ha⟩ := expandMap_iso_mem "neighbourhood characteristics"
        ["neighborhood characteristics"] (by decide) (by decide) (by decide)
        (by decide) (by decide) (step1 m)
      exact sat_iso hc ha
    case _ =>
      obtain ⟨hc, ha⟩ := expandMap_iso_mem "city/town"
        ["city"] (by decide) (by decide) (by decide) (by decide)
        (by decide) (step1 m)
      exact sat_iso hc ha
    case _ =>
      obtain ⟨hc, ha⟩ := expandMap_iso_mem "year built"
        ["built year", "yr built"] (by decide) (by decide) (by decide)
        (by decide) (by decide) (step1 m)
      exact sat_iso hc ha
    case _ =>
      exact (sat_hoa (step1 m)).1
    case _ =>
      exact (sat_hoa (step1 m)).2
  have hstep : step1 (buildExpandedVars m) = buildExpandedVars m :=
    step1_id hg
  have hp2 : p2run ALIASES (buildExpandedVars m) = buildExpandedVars m :=
    p2run_id ALIASES (buildExpandedVars m) (fun g hmem => (hsat g hmem).1)
  have hp3 : p3run ALIASES (buildExpandedVars m) = buildExpandedVars m :=
    p3run_id ALIASES (buildExpandedVars m) (fun g hmem => (hsat g hmem).2)
  show p3run ALIASES (p2run ALIASES (step1 (buildExpandedVars m)))
      = buildExpandedVars m
  rw [hstep, hp2, hp3]

/-! ### Claim C8 -/

/-- C8: the key normalizer is idempotent — `toKey (toKey x) = toKey x`
for every string `x`, where `toKey` lowercases, converts non-breaking
spaces to regular spaces, strips all characters outside word characters,
whitespace and hyphen, collapses whitespace runs to a single space, and
trims. -/
theorem claim_C8 (x : String) : toKey (toKey x) = toKey x :=
  toKey_idem x

/-! ### The template filler

The five delimiter patterns of `PLACEHOLDER_PATTERNS` and the fallback
pattern are modelled by scanners reproducing the global, leftmost, lazy
matching of `String.replace` on these regexps.  `scanClose` finds the
lazy (`(.+?)`) inner text before a one-character closing delimiter: at
least one character, none of them a newline, ending at the first
eligible closer. -/

def scanClose (c : Char) : List Char → List Char → Option (List Char × List Char)
  | _, [] => none
  | acc, x :: xs =>
    if x = c ∧ acc ≠ [] then some (acc.reverse, xs)
    else if x = '\n' then none
    else scanClose c (x :: acc) xs

/-- Fuel-driven scan for `o (.+?) c`-style patterns; processes the list
left to right, replacing each match's capture through `f` and advancing
one character on failure, as the regexp engine does. -/
def replaceDelimGo (o c : Char) (f : List Char → List Char) :
    Nat → List Char → List Char
  | 0, l => l
  | _ + 1, [] => []
  | fuel + 1, x :: xs =>
    if x = o then
      match scanClose c [] xs with
      | some (inner, rest) => f inner ++ replaceDelimGo o c f fuel rest
      | none => x :: replaceDelimGo o c f fuel xs
    else x :: replaceDelimGo o c f fuel xs

def replaceDelim (o c : Char) (f : List Char → List Char) (l : List Char) :
    List Char :=
  replaceDelimGo o c f l.length l

/-- Lazy inner scan for the two-character closer `}}`. -/
def scanClose2 (c : Char) : List Char → List Char → Option (List Char × List Char)
  | acc, x :: y :: xs =>
    if x = c ∧ y = c ∧ acc ≠ [] then some (acc.reverse, xs)
    else if x = '\n' then none
    else scanClose2 c (x :: acc) (y :: xs)
  | _, _ => none

def replaceDbraceGo (f : List Char → List Char) : Nat → List Char → List Char
  | 0, l => l
  | _ + 1, [] => []
  | _ + 1, [x] => [x]
  | fuel + 1, x :: y :: xs =>
    if x = '{' ∧ y = '{' then
      match scanClose2 '}' [] xs with
      | some (inner, rest) => f inner ++ replaceDbraceGo f fuel rest
      | none => x :: replaceDbraceGo f fuel (y :: xs)
    else x :: replaceDbraceGo f fuel (y :: xs)

def replaceDbrace (f : List Char → List Char) (l : List Char) : List Char :=
  replaceDbraceGo f l.length l

/-- The callback shared by all five delimiter passes
(`src/unnamed/part_002`, lines 133–136): substitute the truthy value of
the normalized key, else re-wrap the raw inner text in square
brackets. -/
def fillCb (m : List (String × String)) (raw : List Char) : List Char :=
  match tlook m ⟨toKeyL raw⟩ with
  | some v => v.data
  | none => '[' :: (raw ++ [']'])

/-- Case-insensitive literal-prefix match (for the `i` flag on
`number of `): returns the matched original characters and the rest. -/
def ciMatchLit : List Char → List Char → Option (List Char × List Char)
  | [], xs => some ([], xs)
  | _ :: _, [] => none
  | p :: ps, x :: xs =>
    if Char.toLower x = p then
      match ciMatchLit ps xs with
      | some (taken, rest) => some (x :: taken, rest)
      | none => none
    else none

def NUMBER_OF_LOWER : List Char := "number of ".data

/-- One match attempt of `/\[(number of .+?)\]/gi` at a position just
after a `[`: the case-insensitive literal, then a lazy nonempty inner
run, then `]`.  Returns the raw capture and the rest. -/
def fbMatch (xs : List Char) : Option (List Char × List Char) :=
  match ciMatchLit NUMBER_OF_LOWER xs with
  | some (taken, rest1) =>
    match scanClose ']' [] rest1 with
    | some (inner, rest) => some (taken ++ inner, rest)
    | none => none
  | none => none

/-- `/^number of (.+)$/i.exec(raw)`: the capture is everything after the
ten-character prefix, provided it is nonempty and newline-free. -/
def fbExec (raw : List Char) : Option (List Char) :=
  match ciMatchLit NUMBER_OF_LOWER raw with
  | some (_, rest) => if rest ≠ [] ∧ '\n' ∉ rest then some rest else none
  | none => none

def boundaryAfter : List Char → Bool
  | [] => true
  | r :: _ => !(isWordChar r)

/-- `baseKey.replace(/s\b/, "")`: remove the first `s` that sits at a
word boundary. -/
def replFirstSWB : List Char → List Char
  | [] => []
  | ch :: rest =>
    if ch = 's' ∧ boundaryAfter rest = true then rest
    else ch :: replFirstSWB rest

def fbVariations (baseKey : List Char) : List (List Char) :=
  [baseKey, replFirstSWB baseKey, replFirstSWB baseKey ++ ['s']]

def firstTruthyVals (m : List (String × String)) :
    List (List Char) → Option String
  | [] => none
  | k :: rest =>
    match tlook m ⟨k⟩ with
    | some v => some v
    | none => firstTruthyVals m rest

/-- The callback of the numeric-phrase fallback pass
(`src/unnamed/part_002`, lines 139–152). -/
def fbCb (m : List (String × String)) (raw : List Char) : List Char :=
  match fbExec raw with
  | none => '[' :: (raw ++ [']'])
  | some inner =>
    match firstTruthyVals m (fbVariations (toKeyL inner)) with
    | some v => v.data
    | none => '[' :: (raw ++ [']'])

def fbPassGo (m : List (String × String)) : Nat → List Char → List Char
  | 0, l => l
  | _ + 1, [] => []
  | fuel + 1, x :: xs =>
    if x = '[' then
      match fbMatch xs with
      | some (raw, rest) => fbCb m raw ++ fbPassGo m fuel rest
      | none => x :: fbPassGo m fuel xs
    else x :: fbPassGo m fuel xs

def fbPass (m : List (String × String)) (l : List Char) : List Char :=
  fbPassGo m l.length l

/-- `fillAcrossDelimiters` of the source (`src/unnamed/part_002`, lines
130–155), on character lists: the five delimiter passes in
`PLACEHOLDER_PATTERNS` order (brackets, double braces, single braces,
angle brackets, parentheses), then the numeric-phrase fallback pass. -/
def fillAcrossDelimitersL (m : List (String × String)) (body : List Char) :
    List Char :=
  fbPass m
    (replaceDelim '(' ')' (fillCb m)
      (replaceDelim '<' '>' (fillCb m)
        (replaceDelim '{' '}' (fillCb m)
          (replaceDbrace (fillCb m)
            (replaceDelim '[' ']' (fillCb m) body)))))

def fillAcrossDelimiters (body : String) (m : List (String × String)) :
    String :=
  ⟨fillAcrossDelimitersL m body.data⟩

example : fillAcrossDelimiters "\x7b\x7bcity\x7d\x7d, [state]" [("city", "Miami")]
    = "Miami, [state]" := by decide
example : fillAcrossDelimiters "[number of bedrooms]" [("bedrooms", "3")]
    = "3" := by decide
example : fillAcrossDelimiters "[a]" [("a", "see (note)")]
    = "see [note]" := by decide
example : fillAcrossDelimiters "(a(b)c)" [] = "[a(b]c)" := by decide
example : fillAcrossDelimiters "[a(b]c)" [] = "[a[b]c]" := by decide
example : fillAcrossDelimiters "A [property type] in [city] with [bedrooms] beds."
    (buildExpandedVars [("property type", "condo"), ("city", "Miami"), ("beds", "3")])
    = "A condo in Miami with 3 beds." := by decide

/-! ### Structural lemmas about the scanners -/

theorem scanClose_length {c : Char} :
    ∀ {l acc inner rest}, scanClose c acc l = some (inner, rest) →
      rest.length < l.length := by
  intro l
  induction l with
  | nil => intro acc inner rest h; exact absurd h (by simp [scanClose])
  | cons x xs ih =>
    intro acc inner rest h
    rw [scanClose] at h
    by_cases h1 : x = c ∧ acc ≠ []
    · rw [if_pos h1] at h
      have hEq := Option.some.inj h
      have : rest = xs := ((Prod.mk.injEq .. ▸ hEq).2).symm
      subst this
      simp
    · rw [if_neg h1] at h
      by_cases h2 : x = '\n'
      · rw [if_pos h2] at h
        exact absurd h (by simp)
      · rw [if_neg h2] at h
        exact Nat.lt_trans (ih h) (by simp)

theorem scanClose_sound {c : Char} :
    ∀ {l acc inner rest}, scanClose c acc l = some (inner, rest) →
      acc.reverse ++ l = inner ++ c :: rest := by
  intro l
  induction l with
  | nil => intro acc inner rest h; exact absurd h (by simp [scanClose])
  | cons x xs ih =>
    intro acc inner rest h
    rw [scanClose] at h
    by_cases h1 : x = c ∧ acc ≠ []
    · rw [if_pos h1] at h
      have hEq := Option.some.inj h
      obtain ⟨hi, hr⟩ := Prod.mk.injEq .. ▸ hEq
      subst hi
      subst hr
      rw [h1.1]
    · rw [if_neg h1] at h
      by_cases h2 : x = '\n'
      · rw [if_pos h2] at h
        exact absurd h (by simp)
      · rw [if_neg h2] at h
        have := ih h
        rw [List.reverse_cons, List.append_assoc] at this
        simpa using this

theorem scanClose_complete {c : Char} {post : List Char} :
    ∀ (raw acc : List Char), (∀ ch ∈ raw, ch ≠ c ∧ ch ≠ '\n') →
      (acc ≠ [] ∨ raw ≠ []) →
      scanClose c acc (raw ++ c :: post) = some (acc.reverse ++ raw, post) := by
  intro raw
  induction raw with
  | nil =>
    intro acc _ hne
    rcases hne with hne | hne
    · rw [List.nil_append, scanClose, if_pos ⟨rfl, hne⟩]
      simp
    · exact absurd rfl hne
  | cons r rr ih =>
    intro acc hch _
    have hr := hch r (List.mem_cons_self r rr)
    rw [List.cons_append, scanClose,
      if_neg (by intro hand; exact hr.1 hand.1),
      if_neg hr.2,
      ih (r :: acc) (by intro ch hc; exact hch ch (List.mem_cons_of_mem r hc))
        (Or.inl (by simp))]
    simp

theorem replaceDelimGo_fuel (o c : Char) (f : List Char → List Char) :
    ∀ (n m : Nat) (l : List Char), l.length ≤ n → l.length ≤ m →
      replaceDelimGo o c f n l = replaceDelimGo o c f m l := by
  intro n
  induction n with
  | zero =>
    intro m l hn _
    have : l = [] := List.length_eq_zero.mp (Nat.le_zero.mp hn)
    subst this
    cases m <;> rfl
  | succ n ih =>
    intro m l hn hm
    cases l with
    | nil => cases m <;> rfl
    | cons x xs =>
      cases m with
      | zero => exact absurd hm (by simp)
      | succ m' =>
        have hxs_n : xs.length ≤ n := by simpa using hn
        have hxs_m : xs.length ≤ m' := by simpa using hm
        rw [replaceDelimGo, replaceDelimGo]
        by_cases hx : x = o
        · rw [if_pos hx, if_pos hx]
          rcases hscan : scanClose c [] xs with _ | ⟨inner, rest⟩
          · show x :: replaceDelimGo o c f n xs = x :: replaceDelimGo o c f m' xs
            rw [ih m' xs hxs_n hxs_m]
          · have hlen := scanClose_length hscan
            show f inner ++ replaceDelimGo o c f n rest
              = f inner ++ replaceDelimGo o c f m' rest
            rw [ih m' rest (by omega) (by omega)]
        · rw [if_neg hx, if_neg hx, ih m' xs hxs_n hxs_m]

theorem replaceDelim_cons_eq (o c : Char) (f : List Char → List Char)
    (x : Char) (xs : List Char) :
    replaceDelim o c f (x :: xs) =
      if x = o then
        match scanClose c [] xs with
        | some (inner, rest) => f inner ++ replaceDelim o c f rest
        | none => x :: replaceDelim o c f xs
      else x :: replaceDelim o c f xs := by
  show replaceDelimGo o c f (xs.length + 1) (x :: xs) = _
  rw [replaceDelimGo]
  by_cases hx : x = o
  · rw [if_pos hx, if_pos hx]
    rcases hscan : scanClose c [] xs with _ | ⟨inner, rest⟩
    · rfl
    · have hlen := scanClose_length hscan
      show f inner ++ replaceDelimGo o c f xs.length rest
        = f inner ++ replaceDelim o c f rest
      rw [replaceDelim,
        replaceDelimGo_fuel o c f xs.length rest.length rest (by omega)
          (Nat.le_refl _)]
  · rw [if_neg hx, if_neg hx]
    rfl

theorem replaceDelim_nil (o c : Char) (f : List Char → List Char) :
    replaceDelim o c f [] = [] := rfl

/-- A pass never changes a string that contains no opening delimiter. -/
theorem replaceDelim_no_open {o c : Char} {f : List Char → List Char} :
    ∀ {l : List Char}, o ∉ l → replaceDelim o c f l = l := by
  intro l
  induction l with
  | nil => intro _; rfl
  | cons x xs ih =>
    intro h
    rw [replaceDelim_cons_eq,
      if_neg (by intro hx; exact h (hx ▸ List.mem_cons_self x xs)),
      ih (by intro hmem; exact h (List.mem_cons_of_mem x hmem))]

/-- The bracket pass is the identity whenever the callback re-wraps
every capture in brackets (as it does on an empty map): each match is
replaced by its own text. -/
theorem replaceBracket_rewrap_id {f : List Char → List Char}
    (hf : ∀ r, f r = '[' :: (r ++ [']'])) :
    ∀ (n : Nat) (l : List Char), l.length ≤ n →
      replaceDelim '[' ']' f l = l := by
  intro n
  induction n with
  | zero =>
    intro l hl
    have : l = [] := List.length_eq_zero.mp (Nat.le_zero.mp hl)
    subst this
    rfl
  | succ n ih =>
    intro l hl
    cases l with
    | nil => rfl
    | cons x xs =>
      have hxs : xs.length ≤ n := by simpa using hl
      rw [replaceDelim_cons_eq]
      by_cases hx : x = '['
      · rw [if_pos hx]
        rcases hscan : scanClose ']' [] xs with _ | ⟨inner, rest⟩
        · rw [ih xs hxs]
        · have hsound := scanClose_sound hscan
          have hlen := scanClose_length hscan
          show f inner ++ replaceDelim '[' ']' f rest = x :: xs
          have hsound' : xs = inner ++ ']' :: rest := by simpa using hsound
          rw [hf inner, ih rest (by omega), hx, hsound']
          simp
      · rw [if_neg hx, ih xs hxs]

/-- Leftmost-match correctness of a delimiter pass: on
`pre ++ o ++ raw ++ c ++ post` with no opener in `pre` and a clean inner
text, the pass substitutes `f raw` for the whole occurrence (delimiters
included) and continues after it. -/
theorem replaceDelim_single {o c : Char} {f : List Char → List Char} :
    ∀ (pre : List Char) {raw : List Char} (post : List Char),
      o ∉ pre → raw ≠ [] → (∀ ch ∈ raw, ch ≠ c ∧ ch ≠ '\n') →
      replaceDelim o c f (pre ++ o :: (raw ++ c :: post)) =
        pre ++ f raw ++ replaceDelim o c f post := by
  intro pre
  induction pre with
  | nil =>
    intro raw post _ hne hch
    rw [List.nil_append, replaceDelim_cons_eq, if_pos rfl,
      show scanClose c [] (raw ++ c :: post) = some (raw, post) by
        simpa using scanClose_complete raw [] hch (Or.inr hne)]
    rfl
  | cons p pre' ih =>
    intro raw post hpre hne hch
    have hp : p ≠ o := by
      intro hEq
      exact hpre (hEq ▸ List.mem_cons_self p pre')
    rw [List.cons_append, replaceDelim_cons_eq, if_neg hp,
      ih post (by intro hmem; exact hpre (List.mem_cons_of_mem p hmem)) hne hch]
    rfl

/-! ### Lemmas for the double-brace pass -/

theorem scanClose2_cons2 (c : Char) (acc : List Char) (x y : Char)
    (xs : List Char) :
    scanClose2 c acc (x :: y :: xs) =
      if x = c ∧ y = c ∧ acc ≠ [] then some (acc.reverse, xs)
      else if x = '\n' then none
      else scanClose2 c (x :: acc) (y :: xs) := rfl

theorem scanClose2_length {c : Char} :
    ∀ {l acc inner rest}, scanClose2 c acc l = some (inner, rest) →
      rest.length < l.length := by
  intro l
  induction l with
  | nil => intro acc inner rest h; exact absurd h (by simp [scanClose2])
  | cons x l' ih =>
    intro acc inner rest h
    cases l' with
    | nil => exact absurd h (by simp [scanClose2])
    | cons y xs =>
      rw [scanClose2_cons2] at h
      by_cases h1 : x = c ∧ y = c ∧ acc ≠ []
      · rw [if_pos h1] at h
        have hEq := Option.some.inj h
        have : rest = xs := ((Prod.mk.injEq .. ▸ hEq).2).symm
        subst this
        simp
        omega
      · rw [if_neg h1] at h
        by_cases h2 : x = '\n'
        · rw [if_pos h2] at h
          exact absurd h (by simp)
        · rw [if_neg h2] at h
          exact Nat.lt_trans (ih h) (by simp)

theorem scanClose2_complete {post : List Char} :
    ∀ (raw acc : List Char), (∀ ch ∈ raw, ch ≠ '}' ∧ ch ≠ '\n') →
      (acc ≠ [] ∨ raw ≠ []) →
      scanClose2 '}' acc (raw ++ '}' :: '}' :: post) =
        some (acc.reverse ++ raw, post) := by
  intro raw
  induction raw with
  | nil =>
    intro acc _ hne
    rcases hne with hne | hne
    · rw [List.nil_append, scanClose2_cons2, if_pos ⟨rfl, rfl, hne⟩]
      simp
    · exact absurd rfl hne
  | cons r rr ih =>
    intro acc hch _
    have hr := hch r (List.mem_cons_self r rr)
    have hstep : scanClose2 '}' acc ((r :: rr) ++ '}' :: '}' :: post) =
        scanClose2 '}' (r :: acc) (rr ++ '}' :: '}' :: post) := by
      cases rr with
      | nil =>
        rw [List.cons_append, List.nil_append, scanClose2_cons2,
          if_neg (by intro hand; exact hr.1 hand.1), if_neg hr.2]
      | cons r2 rr2 =>
        rw [List.cons_append, List.cons_append, scanClose2_cons2,
          if_neg (by intro hand; exact hr.1 hand.1), if_neg hr.2]
    rw [hstep,
      ih (r :: acc) (by intro ch hc; exact hch ch (List.mem_cons_of_mem r hc))
        (Or.inl (by simp))]
    simp

theorem replaceDbraceGo_fuel (f : List Char → List Char) :
    ∀ (n m : Nat) (l : List Char), l.length ≤ n → l.length ≤ m →
      replaceDbraceGo f n l = replaceDbraceGo f m l := by
  intro n
  induction n with
  | zero =>
    intro m l hn _
    have : l = [] := List.length_eq_zero.mp (Nat.le_zero.mp hn)
    subst this
    cases m <;> rfl
  | succ n ih =>
    intro m l hn hm
    cases l with
    | nil => cases m <;> rfl
    | cons x l' =>
      cases l' with
      | nil =>
        cases m with
        | zero => exact absurd hm (by simp)
        | succ m' => rfl
      | cons y xs =>
        cases m with
        | zero => exact absurd hm (by simp)
        | succ m' =>
          have h1n : (y :: xs).length ≤ n := by simpa using hn
          have h1m : (y :: xs).length ≤ m' := by simpa using hm
          rw [replaceDbraceGo, replaceDbraceGo]
          by_cases hx : x = '{' ∧ y = '{'
          · rw [if_pos hx, if_pos hx]
            rcases hscan : scanClose2 '}' [] xs with _ | ⟨inner, rest⟩
            · show x :: replaceDbraceGo f n (y :: xs)
                = x :: replaceDbraceGo f m' (y :: xs)
              rw [ih m' (y :: xs) h1n h1m]
            · have hlen := scanClose2_length hscan
              show f inner ++ replaceDbraceGo f n rest
                = f inner ++ replaceDbraceGo f m' rest
              have hxs : xs.length + 2 ≤ n + 1 := by simpa using hn
              have hxs' : xs.length + 2 ≤ m' + 1 := by simpa using hm
              rw [ih m' rest (by omega) (by omega)]
          · rw [if_neg hx, if_neg hx, ih m' (y :: xs) h1n h1m]

theorem replaceDbrace_nil (f : List Char → List Char) :
    replaceDbrace f [] = [] := rfl

theorem replaceDbrace_one (f : List Char → List Char) (x : Char) :
    replaceDbrace f [x] = [x] := rfl

theorem replaceDbrace_cons2 (f : List Char → List Char) (x y : Char)
    (xs : List Char) :
    replaceDbrace f (x :: y :: xs) =
      if x = '{' ∧ y = '{' then
        match scanClose2 '}' [] xs with
        | some (inner, rest) => f inner ++ replaceDbrace f rest
        | none => x :: replaceDbrace f (y :: xs)
      else x :: replaceDbrace f (y :: xs) := by
  show replaceDbraceGo f (xs.length + 2) (x :: y :: xs) = _
  rw [replaceDbraceGo]
  by_cases hx : x = '{' ∧ y = '{'
  · rw [if_pos hx, if_pos hx]
    rcases hscan : scanClose2 '}' [] xs with _ | ⟨inner, rest⟩
    · show x :: replaceDbraceGo f (xs.length + 1) (y :: xs)
        = x :: replaceDbrace f (y :: xs)
      rfl
    · have hlen := scanClose2_length hscan
      show f inner ++ replaceDbraceGo f (xs.length + 1) rest
        = f inner ++ replaceDbrace f rest
      rw [replaceDbrace,
        replaceDbraceGo_fuel f (xs.length + 1) rest.length rest (by omega)
          (Nat.le_refl _)]
  · rw [if_neg hx, if_neg hx]
    rfl

theorem replaceDbrace_no_open {f : List Char → List Char} :
    ∀ (n : Nat) (l : List Char), l.length ≤ n → '{' ∉ l →
      replaceDbrace f l = l := by
  intro n
  induction n with
  | zero =>
    intro l hn _
    have : l = [] := List.length_eq_zero.mp (Nat.le_zero.mp hn)
    subst this
    rfl
  | succ n ih =>
    intro l hn hno
    cases l with
    | nil => rfl
    | cons x l' =>
      cases l' with
      | nil => exact replaceDbrace_one f x
      | cons y xs =>
        have hx : x ≠ '{' := by
          intro hEq
          exact hno (hEq ▸ List.mem_cons_self x _)
        rw [replaceDbrace_cons2, if_neg (by intro hand; exact hx hand.1),
          ih (y :: xs) (by simpa using hn)
            (by intro hmem; exact hno (List.mem_cons_of_mem x hmem))]

/-- Leftmost-match correctness of the double-brace pass. -/
theorem replaceDbrace_single {f : List Char → List Char} :
    ∀ (pre : List Char) {raw : List Char} (post : List Char),
      '{' ∉ pre → raw ≠ [] → (∀ ch ∈ raw, ch ≠ '}' ∧ ch ≠ '\n') →
      replaceDbrace f (pre ++ '{' :: '{' :: (raw ++ '}' :: '}' :: post)) =
        pre ++ f raw ++ replaceDbrace f post := by
  intro pre
  induction pre with
  | nil =>
    intro raw post _ hne hch
    rw [List.nil_append, replaceDbrace_cons2, if_pos ⟨rfl, rfl⟩,
      show scanClose2 '}' [] (raw ++ '}' :: '}' :: post) = some (raw, post) by
        simpa using scanClose2_complete raw [] hch (Or.inr hne)]
    rfl
  | cons p pre' ih =>
    intro raw post hpre hne hch
    have hp : p ≠ '{' := by
      intro hEq
      exact hpre (hEq ▸ List.mem_cons_self p pre')
    have hih := ih post
      (by intro hmem; exact hpre (List.mem_cons_of_mem p hmem)) hne hch
    cases pre' with
    | nil =>
      rw [List.cons_append, List.nil_append, replaceDbrace_cons2,
        if_neg (by intro hand; exact hp hand.1)]
      rw [List.nil_append] at hih
      rw [hih]
      rfl
    | cons p2 pre2 =>
      rw [List.cons_append, List.cons_append, replaceDbrace_cons2,
        if_neg (by intro hand; exact hp hand.1)]
      rw [List.cons_append] at hih
      rw [hih]
      rfl

/-! ### Lemmas for the numeric-phrase fallback pass -/

theorem ciMatchLit_sound :
    ∀ {p xs taken rest : List Char},
      ciMatchLit p xs = some (taken, rest) → xs = taken ++ rest := by
  intro p
  induction p with
  | nil =>
    intro xs taken rest h
    rw [ciMatchLit] at h
    have hEq := Option.some.inj h
    obtain ⟨h1, h2⟩ := Prod.mk.injEq .. ▸ hEq
    subst h1
    subst h2
    rfl
  | cons q ps ih =>
    intro xs taken rest h
    cases xs with
    | nil => exact absurd h (by simp [ciMatchLit])
    | cons x xs' =>
      rw [ciMatchLit] at h
      by_cases hx : Char.toLower x = q
      · rw [if_pos hx] at h
        rcases hm : ciMatchLit ps xs' with _ | ⟨taken', rest'⟩
        · rw [hm] at h
          exact absurd h (by simp)
        · rw [hm] at h
          have hEq := Option.some.inj h
          obtain ⟨h1, h2⟩ := Prod.mk.injEq .. ▸ hEq
          subst h2
          rw [← h1, List.cons_append, ← ih hm]
      · rw [if_neg hx] at h
        exact absurd h (by simp)

theorem ciMatchLit_complete :
    ∀ (t rest : List Char),
      ciMatchLit (t.map Char.toLower) (t ++ rest) = some (t, rest) := by
  intro t
  induction t with
  | nil => intro rest; rfl
  | cons x t' ih =>
    intro rest
    rw [List.map_cons, List.cons_append, ciMatchLit, if_pos rfl, ih rest]

theorem fbMatch_sound {xs raw rest : List Char}
    (h : fbMatch xs = some (raw, rest)) : xs = raw ++ ']' :: rest := by
  rw [fbMatch] at h
  rcases hci : ciMatchLit NUMBER_OF_LOWER xs with _ | ⟨taken, rest1⟩
  · rw [hci] at h
    exact absurd h (by simp)
  · rw [hci] at h
    have h' : (match scanClose ']' [] rest1 with
        | some (inner, rest) => some (taken ++ inner, rest)
        | none => none) = some (raw, rest) := h
    clear h
    rcases hsc : scanClose ']' [] rest1 with _ | ⟨inner, rest2⟩
    · rw [hsc] at h'
      exact absurd h' (by simp)
    · rw [hsc] at h'
      have h : some (taken ++ inner, rest2) = some (raw, rest) := h'
      have hEq := Option.some.inj h
      obtain ⟨h1, h2⟩ := Prod.mk.injEq .. ▸ hEq
      subst h2
      rw [ciMatchLit_sound hci, ← h1]
      have := scanClose_sound hsc
      rw [List.reverse_nil, List.nil_append] at this
      rw [this]
      simp

theorem fbMatch_length {xs raw rest : List Char}
    (h : fbMatch xs = some (raw, rest)) : rest.length < xs.length := by
  have := fbMatch_sound h
  rw [this]
  simp
  omega

theorem fbPassGo_fuel (m : List (String × String)) :
    ∀ (n k : Nat) (l : List Char), l.length ≤ n → l.length ≤ k →
      fbPassGo m n l = fbPassGo m k l := by
  intro n
  induction n with
  | zero =>
    intro k l hn _
    have : l = [] := List.length_eq_zero.mp (Nat.le_zero.mp hn)
    subst this
    cases k <;> rfl
  | succ n ih =>
    intro k l hn hk
    cases l with
    | nil => cases k <;> rfl
    | cons x xs =>
      cases k with
      | zero => exact absurd hk (by simp)
      | succ k' =>
        have hxs_n : xs.length ≤ n := by simpa using hn
        have hxs_k : xs.length ≤ k' := by simpa using hk
        rw [fbPassGo, fbPassGo]
        by_cases hx : x = '['
        · rw [if_pos hx, if_pos hx]
          rcases hscan : fbMatch xs with _ | ⟨raw, rest⟩
          · show x :: fbPassGo m n xs = x :: fbPassGo m k' xs
            rw [ih k' xs hxs_n hxs_k]
          · have hlen := fbMatch_length hscan
            show fbCb m raw ++ fbPassGo m n rest
              = fbCb m raw ++ fbPassGo m k' rest
            rw [ih k' rest (by omega) (by omega)]
        · rw [if_neg hx, if_neg hx, ih k' xs hxs_n hxs_k]

theorem fbPass_cons_eq (m : List (String × String)) (x : Char)
    (xs : List Char) :
    fbPass m (x :: xs) =
      if x = '[' then
        match fbMatch xs with
        | some (raw, rest) => fbCb m raw ++ fbPass m rest
        | none => x :: fbPass m xs
      else x :: fbPass m xs := by
  show fbPassGo m (xs.length + 1) (x :: xs) = _
  rw [fbPassGo]
  by_cases hx : x = '['
  · rw [if_pos hx, if_pos hx]
    rcases hscan : fbMatch xs with _ | ⟨raw, rest⟩
    · rfl
    · have hlen := fbMatch_length hscan
      show fbCb m raw ++ fbPassGo m xs.length rest
        = fbCb m raw ++ fbPass m rest
      rw [fbPass,
        fbPassGo_fuel m xs.length rest.length rest (by omega) (Nat.le_refl _)]
  · rw [if_neg hx, if_neg hx]
    rfl

theorem fbPass_no_open {m : List (String × String)} :
    ∀ {l : List Char}, '[' ∉ l → fbPass m l = l := by
  intro l
  induction l with
  | nil => intro _; rfl
  | cons x xs ih =>
    intro h
    rw [fbPass_cons_eq,
      if_neg (by intro hx; exact h (hx ▸ List.mem_cons_self x xs)),
      ih (by intro hmem; exact h (List.mem_cons_of_mem x hmem))]

/-- With an empty map the fallback callback reproduces each match's own
text. -/
theorem firstTruthyVals_empty :
    ∀ ks : List (List Char), firstTruthyVals [] ks = none := by
  intro ks
  induction ks with
  | nil => rfl
  | cons k rest ih =>
    rw [firstTruthyVals]
    show firstTruthyVals [] rest = none
    exact ih

theorem fbCb_empty (raw : List Char) : fbCb [] raw = '[' :: (raw ++ [']']) := by
  rw [fbCb]
  rcases he : fbExec raw with _ | inner
  · rfl
  · show (match firstTruthyVals [] (fbVariations (toKeyL inner)) with
      | some v => v.data
      | none => '[' :: (raw ++ [']'])) = '[' :: (raw ++ [']'])
    rw [firstTruthyVals_empty]

/-- The fallback pass is the identity whenever the callback re-wraps
every capture (in particular on the empty map). -/
theorem fbPass_rewrap_id {m : List (String × String)}
    (hcb : ∀ raw, fbCb m raw = '[' :: (raw ++ [']'])) :
    ∀ (n : Nat) (l : List Char), l.length ≤ n → fbPass m l = l := by
  intro n
  induction n with
  | zero =>
    intro l hl
    have : l = [] := List.length_eq_zero.mp (Nat.le_zero.mp hl)
    subst this
    rfl
  | succ n ih =>
    intro l hl
    cases l with
    | nil => rfl
    | cons x xs =>
      have hxs : xs.length ≤ n := by simpa using hl
      rw [fbPass_cons_eq]
      by_cases hx : x = '['
      · rw [if_pos hx]
        rcases hscan : fbMatch xs with _ | ⟨raw, rest⟩
        · rw [ih xs hxs]
        · have hsound := fbMatch_sound hscan
          have hlen := fbMatch_length hscan
          show fbCb m raw ++ fbPass m rest = x :: xs
          rw [hcb raw, ih rest (by omega), hx, hsound]
          simp
      · rw [if_neg hx, ih xs hxs]

/-- Leftmost-match correctness of the fallback pass, given that its
pattern matches right after the leading `[`. -/
theorem fbPass_single {m : List (String × String)} :
    ∀ (pre : List Char) {raw post : List Char},
      '[' ∉ pre → fbMatch (raw ++ ']' :: post) = some (raw, post) →
      fbPass m (pre ++ '[' :: (raw ++ ']' :: post)) =
        pre ++ fbCb m raw ++ fbPass m post := by
  intro pre
  induction pre with
  | nil =>
    intro raw post _ hmatch
    rw [List.nil_append, fbPass_cons_eq, if_pos rfl, hmatch]
    rfl
  | cons p pre' ih =>
    intro raw post hpre hmatch
    have hp : p ≠ '[' := by
      intro hEq
      exact hpre (hEq ▸ List.mem_cons_self p pre')
    rw [List.cons_append, fbPass_cons_eq, if_neg hp,
      ih (by intro hmem; exact hpre (List.mem_cons_of_mem p hmem)) hmatch]
    rfl

/-- A character that is no delimiter of any of the five styles and no
newline: the ordinary case for placeholder inner text. -/
def plainChar (ch : Char) : Prop :=
  ch ≠ '[' ∧ ch ≠ ']' ∧ ch ≠ '{' ∧ ch ≠ '}' ∧ ch ≠ '<' ∧ ch ≠ '>' ∧
  ch ≠ '(' ∧ ch ≠ ')' ∧ ch ≠ '\n'

instance (ch : Char) : Decidable (plainChar ch) := by
  unfold plainChar
  infer_instance

/-! ### Claim C4 -/

/-- C4: in each of the five delimiter passes, a placeholder occurrence
whose normalized inner text has a truthy value in the expanded map is
replaced — delimiters included — by that value, and an occurrence whose
key has no value is rewritten as the raw inner text wrapped in square
brackets, whatever the original delimiter style; moreover the
multi-delimiter example of the double-curly and bracket styles with `{"city": "Miami"}`
fills to `"Miami, [state]"`. -/
theorem claim_C4 :
    (∀ (m : List (String × String)) (pre raw post : List Char),
      '[' ∉ pre → raw ≠ [] → (∀ ch ∈ raw, plainChar ch) →
      replaceDelim '[' ']' (fillCb m) (pre ++ '[' :: (raw ++ ']' :: post)) =
        pre ++ (match tlook m ⟨toKeyL raw⟩ with
          | some v => v.data
          | none => '[' :: (raw ++ [']'])) ++
          replaceDelim '[' ']' (fillCb m) post) ∧
    (∀ (m : List (String × String)) (pre raw post : List Char),
      '{' ∉ pre → raw ≠ [] → (∀ ch ∈ raw, plainChar ch) →
      replaceDbrace (fillCb m) (pre ++ '{' :: '{' :: (raw ++ '}' :: '}' :: post)) =
        pre ++ (match tlook m ⟨toKeyL raw⟩ with
          | some v => v.data
          | none => '[' :: (raw ++ [']'])) ++
          replaceDbrace (fillCb m) post) ∧
    (∀ (m : List (String × String)) (pre raw post : List Char),
      '{' ∉ pre → raw ≠ [] → (∀ ch ∈ raw, plainChar ch) →
      replaceDelim '{' '}' (fillCb m) (pre ++ '{' :: (raw ++ '}' :: post)) =
        pre ++ (match tlook m ⟨toKeyL raw⟩ with
          | some v => v.data
          | none => '[' :: (raw ++ [']'])) ++
          replaceDelim '{' '}' (fillCb m) post) ∧
    (∀ (m : List (String × String)) (pre raw post : List Char),
      '<' ∉ pre → raw ≠ [] → (∀ ch ∈ raw, plainChar ch) →
      replaceDelim '<' '>' (fillCb m) (pre ++ '<' :: (raw ++ '>' :: post)) =
        pre ++ (match tlook m ⟨toKeyL raw⟩ with
          | some v => v.data
          | none => '[' :: (raw ++ [']'])) ++
          replaceDelim '<' '>' (fillCb m) post) ∧
    (∀ (m : List (String × String)) (pre raw post : List Char),
      '(' ∉ pre → raw ≠ [] → (∀ ch ∈ raw, plainChar ch) →
      replaceDelim '(' ')' (fillCb m) (pre ++ '(' :: (raw ++ ')' :: post)) =
        pre ++ (match tlook m ⟨toKeyL raw⟩ with
          | some v => v.data
          | none => '[' :: (raw ++ [']'])) ++
          replaceDelim '(' ')' (fillCb m) post) ∧
    fillAcrossDelimiters "\x7b\x7bcity\x7d\x7d, [state]" [("city", "Miami")]
      = "Miami, [state]" := by
  refine ⟨?_, ?_, ?_, ?_, ?_, by decide⟩
  · intro m pre raw post hpre hne hch
    exact replaceDelim_single pre post hpre hne
      (by intro ch hc; exact ⟨(hch ch hc).2.1, (hch ch hc).2.2.2.2.2.2.2.2⟩)
  · intro m pre raw post hpre hne hch
    exact replaceDbrace_single pre post hpre hne
      (by intro ch hc; exact ⟨(hch ch hc).2.2.2.1, (hch ch hc).2.2.2.2.2.2.2.2⟩)
  · intro m pre raw post hpre hne hch
    exact replaceDelim_single pre post hpre hne
      (by intro ch hc; exact ⟨(hch ch hc).2.2.2.1, (hch ch hc).2.2.2.2.2.2.2.2⟩)
  · intro m pre raw post hpre hne hch
    exact replaceDelim_single pre post hpre hne
      (by intro ch hc; exact ⟨(hch ch hc).2.2.2.2.2.1, (hch ch hc).2.2.2.2.2.2.2.2⟩)
  · intro m pre raw post hpre hne hch
    exact replaceDelim_single pre post hpre hne
      (by intro ch hc; exact ⟨(hch ch hc).2.2.2.2.2.2.2.1, (hch ch hc).2.2.2.2.2.2.2.2⟩)

/-- Witness for C4: a resolved `<sqft>` occurrence and an unresolved
`{{town}}` occurrence, at concrete inputs. -/
theorem claim_C4_witness :
    replaceDelim '<' '>' (fillCb [("sqft", "900")])
        ("x ".data ++ '<' :: ("sqft".data ++ '>' :: " y".data)) =
      "x 900 y".data ∧
    replaceDbrace (fillCb [("sqft", "900")])
        ('{' :: '{' :: ("town".data ++ '}' :: '}' :: [])) =
      "[town]".data := by
  constructor
  · have h := claim_C4.2.2.2.1 [("sqft", "900")] "x ".data "sqft".data
      " y".data (by decide) (by decide) (by decide)
    rw [h]
    decide
  · have h := claim_C4.2.1 [("sqft", "900")] [] "town".data []
      (by decide) (by decide) (by decide)
    rw [show ([] : List Char) ++ '{' :: '{' :: ("town".data ++ '}' :: '}' :: [])
        = '{' :: '{' :: ("town".data ++ '}' :: '}' :: []) from rfl] at h
    rw [h]
    decide

/-! ### Claim C7 -/

/-- Counterexample to C7 as stated: on the template `"(a(b)c)"` with no
values supplied, a second `fill` changes the first fill's output.  The
parenthesis pass rewraps the lazy match `(a(b)` into `[a(b]`, leaving
the characters `(`…`)` from inside the original placeholder in the
output, and the second run's parenthesis pass then matches across the
rewrapped bracket token. -/
theorem claim_C7_counterexample :
    fillAcrossDelimiters (fillAcrossDelimiters "(a(b)c)" []) []
      ≠ fillAcrossDelimiters "(a(b)c)" [] := by
  decide

theorem fillCb_empty (raw : List Char) :
    fillCb [] raw = '[' :: (raw ++ [']']) := rfl

/-- With the empty map, every pass of the filler leaves a template
without `{`, `<` and `(` characters unchanged. -/
theorem fill_empty_id {l : List Char} (hbrace : '{' ∉ l) (hangle : '<' ∉ l)
    (hparen : '(' ∉ l) : fillAcrossDelimitersL [] l = l := by
  rw [fillAcrossDelimitersL,
    replaceBracket_rewrap_id fillCb_empty l.length l (Nat.le_refl _),
    replaceDbrace_no_open l.length l (Nat.le_refl _) hbrace,
    replaceDelim_no_open hbrace,
    replaceDelim_no_open hangle,
    replaceDelim_no_open hparen,
    fbPass_rewrap_id fbCb_empty l.length l (Nat.le_refl _)]

/-- C7, amended: with no values supplied, `fill` leaves any template
containing no `{`, `<` or `(` characters (in particular any template
whose placeholders are all bracket-style) unchanged, and re-running
`fill` on the output is therefore idempotent on such templates.  For
general templates a second run can differ (see the counterexample):
delimiter characters inside a rewrapped placeholder can be re-parsed. -/
theorem claim_C7 (t : String) (hbrace : '{' ∉ t.data)
    (hangle : '<' ∉ t.data) (hparen : '(' ∉ t.data) :
    fillAcrossDelimiters t [] = t ∧
    fillAcrossDelimiters (fillAcrossDelimiters t []) []
      = fillAcrossDelimiters t [] := by
  obtain ⟨ld⟩ := t
  have hid : fillAcrossDelimiters ⟨ld⟩ [] = (⟨ld⟩ : String) :=
    congrArg String.mk (fill_empty_id hbrace hangle hparen)
  exact ⟨hid, by rw [hid, hid]⟩

/-- Witness for C7 at a bracket-style template. -/
theorem claim_C7_witness :
    fillAcrossDelimiters "Write about [city], [number of beds]." [] =
      "Write about [city], [number of beds]." ∧
    fillAcrossDelimiters
        (fillAcrossDelimiters "Write about [city], [number of beds]." []) []
      = fillAcrossDelimiters "Write about [city], [number of beds]." [] :=
  claim_C7 "Write about [city], [number of beds]." (by decide) (by decide)
    (by decide)

/-! ### Claim C3 -/

/-- Modelled from the spec's words, for comparison only (claim C3): "the
noun phrase with a *trailing* `s` removed".  The code instead removes
the first `s` at a word boundary (`/s\b/`, non-global), which differs on
multi-word phrases with an interior word-final `s`. -/
def specTrailingS (l : List Char) : List Char :=
  if l.getLast? = some 's' then l.dropLast else l

/-- Counterexample to C3 as stated: for the placeholder
`[number of beds rooms]` the spec's "trailing `s` removed" candidate is
`beds room`, which has the value `"7"` in the map — so the claim
predicts the template fills to `"7"` — yet the code removes the *first*
word-final `s` (giving candidate `bed rooms`) and leaves the template
unchanged. -/
theorem claim_C3_counterexample :
    fillAcrossDelimiters "[number of beds rooms]" [("beds room", "7")]
      = "[number of beds rooms]" ∧
    specTrailingS "beds rooms".data = "beds room".data ∧
    tlook [("beds room", "7")] "beds room" = some "7" ∧
    replFirstSWB "beds rooms".data = "bed rooms".data := by
  refine ⟨by decide, by decide, by decide, by decide⟩

/-- C3, amended: after the delimiter passes, a bracket placeholder
`[number of X]` (with plain inner text) whose full key was not directly
resolved is substituted by the value of the first of the three candidate
keys — the normalized noun phrase as-is, the phrase with its first
word-boundary `s` removed, and that result with `s` re-appended — that
has a truthy value in the expanded map, and is left unchanged when none
has. -/
theorem claim_C3 (X : List Char) (m : List (String × String))
    (hplain : ∀ ch ∈ X, plainChar ch) (hne : X ≠ [])
    (hmiss : tlook m ⟨toKeyL ("number of ".data ++ X)⟩ = none) :
    fillAcrossDelimitersL m ('[' :: (("number of ".data ++ X) ++ [']'])) =
      (match firstTruthyVals m (fbVariations (toKeyL X)) with
        | some v => v.data
        | none => '[' :: (("number of ".data ++ X) ++ [']'])) := by
  have hnumlit : ∀ ch ∈ ("number of ".data : List Char),
      ch ≠ ']' ∧ ch ≠ '\n' ∧ ch ≠ '{' ∧ ch ≠ '<' ∧ ch ≠ '(' := by decide
  have hraw_ne : ("number of ".data ++ X) ≠ [] := by simp
  have hraw_ch : ∀ ch ∈ ("number of ".data ++ X), ch ≠ ']' ∧ ch ≠ '\n' := by
    intro ch hc
    rcases List.mem_append.mp hc with h | h
    · exact ⟨(hnumlit ch h).1, (hnumlit ch h).2.1⟩
    · exact ⟨(hplain ch h).2.1, (hplain ch h).2.2.2.2.2.2.2.2⟩
  have hXplain : ∀ ch ∈ X, ch ≠ ']' ∧ ch ≠ '\n' := by
    intro ch hc
    exact ⟨(hplain ch hc).2.1, (hplain ch hc).2.2.2.2.2.2.2.2⟩
  have hno_brace : '{' ∉ ('[' :: (("number of ".data ++ X) ++ [']'])) := by
    intro hmem
    rcases List.mem_cons.mp hmem with hEq | hmem'
    · exact absurd hEq (by decide)
    · rcases List.mem_append.mp hmem' with h | h
      · rcases List.mem_append.mp h with h' | h'
        · exact (hnumlit _ h').2.2.1 rfl
        · exact (hplain _ h').2.2.1 rfl
      · exact absurd (List.mem_singleton.mp h) (by decide)
  have hno_angle : '<' ∉ ('[' :: (("number of ".data ++ X) ++ [']'])) := by
    intro hmem
    rcases List.mem_cons.mp hmem with hEq | hmem'
    · exact absurd hEq (by decide)
    · rcases List.mem_append.mp hmem' with h | h
      · rcases List.mem_append.mp h with h' | h'
        · exact (hnumlit _ h').2.2.2.1 rfl
        · exact (hplain _ h').2.2.2.2.1 rfl
      · exact absurd (List.mem_singleton.mp h) (by decide)
  have hno_paren : '(' ∉ ('[' :: (("number of ".data ++ X) ++ [']'])) := by
    intro hmem
    rcases List.mem_cons.mp hmem with hEq | hmem'
    · exact absurd hEq (by decide)
    · rcases List.mem_append.mp hmem' with h | h
      · rcases List.mem_append.mp h with h' | h'
        · exact (hnumlit _ h').2.2.2.2 rfl
        · exact (hplain _ h').2.2.2.2.2.2.1 rfl
      · exact absurd (List.mem_singleton.mp h) (by decide)
  have h1 : replaceDelim '[' ']' (fillCb m)
      ('[' :: (("number of ".data ++ X) ++ [']'])) =
      '[' :: (("number of ".data ++ X) ++ [']']) := by
    have hs := @replaceDelim_single '[' ']' (fillCb m) []
      ("number of ".data ++ X) [] (by simp) hraw_ne hraw_ch
    rw [List.nil_append] at hs
    rw [show (("number of ".data ++ X) ++ [']'])
        = (("number of ".data ++ X) ++ ']' :: []) from rfl, hs,
      List.nil_append, replaceDelim_nil, List.append_nil]
    rw [fillCb, hmiss]
  have hscanX : scanClose ']' [] (X ++ ']' :: []) = some (X, []) := by
    simpa using scanClose_complete X [] hXplain (Or.inr hne)
  have hmatch : fbMatch (("number of ".data ++ X) ++ ']' :: []) =
      some ("number of ".data ++ X, []) := by
    rw [fbMatch, List.append_assoc,
      show NUMBER_OF_LOWER = ("number of ".data).map Char.toLower from by
        decide,
      ciMatchLit_complete "number of ".data (X ++ ']' :: [])]
    show (match scanClose ']' [] (X ++ ']' :: []) with
      | some (inner, rest) => some ("number of ".data ++ inner, rest)
      | none => none) = some ("number of ".data ++ X, [])
    rw [hscanX]
  have h6 : fbPass m ('[' :: (("number of ".data ++ X) ++ [']'])) =
      fbCb m ("number of ".data ++ X) := by
    have hs := @fbPass_single m [] ("number of ".data ++ X)
      [] (by simp) hmatch
    rw [List.nil_append] at hs
    rw [show (("number of ".data ++ X) ++ [']'])
        = (("number of ".data ++ X) ++ ']' :: []) from rfl, hs,
      List.nil_append, show fbPass m [] = [] from rfl, List.append_nil]
  have hexec : fbExec ("number of ".data ++ X) = some X := by
    rw [fbExec,
      show NUMBER_OF_LOWER = ("number of ".data).map Char.toLower from by
        decide,
      ciMatchLit_complete "number of ".data X]
    show (if X ≠ [] ∧ '\n' ∉ X then some X else none) = some X
    rw [if_pos ⟨hne, fun hmem => (hplain _ hmem).2.2.2.2.2.2.2.2 rfl⟩]
  have hcb : fbCb m ("number of ".data ++ X) =
      (match firstTruthyVals m (fbVariations (toKeyL X)) with
        | some v => v.data
        | none => '[' :: (("number of ".data ++ X) ++ [']'])) := by
    rw [fbCb, hexec]
  rw [fillAcrossDelimitersL, h1,
    replaceDbrace_no_open _ _ (Nat.le_refl _) hno_brace,
    replaceDelim_no_open hno_brace,
    replaceDelim_no_open hno_angle,
    replaceDelim_no_open hno_paren,
    h6, hcb]

/-- Witness for C3, which is also the claim's own example: the template
`[number of bedrooms]` with map `{"bedrooms": "3"}` fills to `"3"`. -/
theorem claim_C3_witness :
    fillAcrossDelimitersL [("bedrooms", "3")]
        ('[' :: (("number of ".data ++ "bedrooms".data) ++ [']'])) =
      "3".data := by
  have h := claim_C3 "bedrooms".data [("bedrooms", "3")]
    (by decide) (by decide) (by decide)
  rw [h]
  decide

/-! ### Claim C10 -/

/-- C10: values inserted by an earlier delimiter pass are re-scanned by
later passes: template `"[a]"` with map `{"a": "see (note)"}` (and no
key `note`) fills to `"see [note]"` — the parenthesis inside the
substituted *value* is re-parsed as a placeholder — rather than to
`"see (note)"`. -/
theorem claim_C10 :
    fillAcrossDelimiters "[a]" [("a", "see (note)")] = "see [note]" ∧
    tlook [("a", "see (note)")] (toKey "a") = some "see (note)" ∧
    tlook [("a", "see (note)")] (toKey "note") = none ∧
    ("see [note]" : String) ≠ "see (note)" := by
  refine ⟨by decide, by decide, by decide, by decide⟩

/-! ### Claim C9 -/

theorem ciMatchLit_map :
    ∀ {p xs taken rest : List Char},
      ciMatchLit p xs = some (taken, rest) →
      taken.map Char.toLower = p := by
  intro p
  induction p with
  | nil =>
    intro xs taken rest h
    rw [ciMatchLit] at h
    have hEq := Option.some.inj h
    obtain ⟨h1, h2⟩ := Prod.mk.injEq .. ▸ hEq
    subst h1
    rfl
  | cons q ps ih =>
    intro xs taken rest h
    cases xs with
    | nil => exact absurd h (by simp [ciMatchLit])
    | cons x xs' =>
      rw [ciMatchLit] at h
      by_cases hx : Char.toLower x = q
      · rw [if_pos hx] at h
        rcases hm : ciMatchLit ps xs' with _ | ⟨taken', rest'⟩
        · rw [hm] at h
          exact absurd h (by simp)
        · rw [hm] at h
          have hEq := Option.some.inj h
          obtain ⟨h1, h2⟩ := Prod.mk.injEq .. ▸ hEq
          rw [← h1, List.map_cons, hx, ih hm]
      · rw [if_neg hx] at h
        exact absurd h (by simp)

/-- On `raw ++ "]"` with a clean `raw`, the fallback pattern either
fails or matches exactly `raw`. -/
theorem fbMatch_plain {raw : List Char}
    (hch : ∀ ch ∈ raw, ch ≠ ']' ∧ ch ≠ '\n') :
    fbMatch (raw ++ ']' :: []) = none ∨
    fbMatch (raw ++ ']' :: []) = some (raw, []) := by
  rcases hci : ciMatchLit NUMBER_OF_LOWER (raw ++ ']' :: [])
      with _ | ⟨taken, rest1⟩
  · left
    rw [fbMatch, hci]
  · have hsound := ciMatchLit_sound hci
    have hmap := ciMatchLit_map hci
    have hnotaken : ']' ∉ taken := by
      intro hmem
      have : Char.toLower ']' ∈ NUMBER_OF_LOWER := by
        rw [← hmap]
        exact List.mem_map_of_mem Char.toLower hmem
      exact absurd this (by decide)
    have hlen : taken.length ≤ raw.length := by
      have hlens : raw.length + 1 = taken.length + rest1.length := by
        have := congrArg List.length hsound
        simpa using this
      by_cases hr : rest1 = []
      · subst hr
        rw [List.append_nil] at hsound
        exact absurd (hsound ▸ List.mem_append_right raw
          (List.mem_singleton.mpr rfl)) hnotaken
      · have : 1 ≤ rest1.length := by
          cases rest1 with
          | nil => exact absurd rfl hr
          | cons a b => simp
        omega
    have hsplit : taken = raw.take taken.length ∧
        rest1 = raw.drop taken.length ++ ']' :: [] := by
      have hre : raw = raw.take taken.length ++ raw.drop taken.length :=
        (List.take_append_drop taken.length raw).symm
      have heq2 : taken ++ rest1 =
          raw.take taken.length ++ (raw.drop taken.length ++ ']' :: []) := by
        rw [← List.append_assoc, ← hre, ← hsound]
      have hlen2 : taken.length = (raw.take taken.length).length := by
        simp [hlen]
      obtain ⟨h1, h2⟩ := List.append_inj heq2 hlen2
      exact ⟨h1, h2⟩
    by_cases hdrop : raw.drop taken.length = []
    · left
      rw [fbMatch, hci, hsplit.2, hdrop, List.nil_append]
      rfl
    · right
      rw [fbMatch, hci]
      show (match scanClose ']' [] rest1 with
        | some (inner, rest) => some (taken ++ inner, rest)
        | none => none) = some (raw, [])
      rw [hsplit.2,
        show scanClose ']' [] (raw.drop taken.length ++ ']' :: []) =
            some (raw.drop taken.length, []) by
          simpa using scanClose_complete (raw.drop taken.length) []
            (by intro ch hc; exact hch ch (List.mem_of_mem_drop hc))
            (Or.inr hdrop)]
      have htk : taken ++ raw.drop taken.length = raw := by
        nth_rewrite 1 [hsplit.1]
        exact List.take_append_drop taken.length raw
      show some (taken ++ raw.drop taken.length, []) = some (raw, [])
      rw [htk]

/-- C9: the engine's operations are total functions of their inputs (as
the executable definitions in this file witness); `normalize` maps the
empty string to the empty string; the expander never produces an empty
value (absence, not failure, encodes an unset field); and an
unresolvable bracket placeholder is not an error but a first-class
result — the template comes back with the placeholder as a
bracket-wrapped token. -/
theorem claim_C9 :
    (toKey "" = "") ∧
    (∀ (l : List (String × String)) (k v : String),
      alookup (buildExpandedVars l) k = some v → v ≠ "") ∧
    (∀ (raw : List Char) (m : List (String × String)),
      (∀ ch ∈ raw, plainChar ch) → raw ≠ [] →
      tlook m ⟨toKeyL raw⟩ = none →
      (∀ inner, fbExec raw = some inner →
        firstTruthyVals m (fbVariations (toKeyL inner)) = none) →
      fillAcrossDelimitersL m ('[' :: (raw ++ [']'])) =
        '[' :: (raw ++ [']'])) := by
  refine ⟨by decide, ?_, ?_⟩
  · intro l k v h
    exact ((buildExpandedVars_good l).1 (k, v) (alookup_mem h)).2.2
  · intro raw m hplain hne hmiss hfb
    have hraw_ch : ∀ ch ∈ raw, ch ≠ ']' ∧ ch ≠ '\n' := by
      intro ch hc
      exact ⟨(hplain ch hc).2.1, (hplain ch hc).2.2.2.2.2.2.2.2⟩
    have hno_brace : '{' ∉ ('[' :: (raw ++ [']'])) := by
      intro hmem
      rcases List.mem_cons.mp hmem with hEq | hmem'
      · exact absurd hEq (by decide)
      · rcases List.mem_append.mp hmem' with h | h
        · exact (hplain _ h).2.2.1 rfl
        · exact absurd (List.mem_singleton.mp h) (by decide)
    have hno_angle : '<' ∉ ('[' :: (raw ++ [']'])) := by
      intro hmem
      rcases List.mem_cons.mp hmem with hEq | hmem'
      · exact absurd hEq (by decide)
      · rcases List.mem_append.mp hmem' with h | h
        · exact (hplain _ h).2.2.2.2.1 rfl
        · exact absurd (List.mem_singleton.mp h) (by decide)
    have hno_paren : '(' ∉ ('[' :: (raw ++ [']'])) := by
      intro hmem
      rcases List.mem_cons.mp hmem with hEq | hmem'
      · exact absurd hEq (by decide)
      · rcases List.mem_append.mp hmem' with h | h
        · exact (hplain _ h).2.2.2.2.2.2.1 rfl
        · exact absurd (List.mem_singleton.mp h) (by decide)
    have hcb : fbCb m raw = '[' :: (raw ++ [']']) := by
      rcases he : fbExec raw with _ | inner
      · rw [fbCb, he]
      · rw [fbCb, he]
        show (match firstTruthyVals m (fbVariations (toKeyL inner)) with
          | some v => v.data
          | none => '[' :: (raw ++ [']'])) = '[' :: (raw ++ [']'])
        rw [hfb inner he]
    have h1 : replaceDelim '[' ']' (fillCb m) ('[' :: (raw ++ [']'])) =
        '[' :: (raw ++ [']']) := by
      have hs := @replaceDelim_single '[' ']' (fillCb m) []
        raw [] (by simp) hne hraw_ch
      rw [List.nil_append] at hs
      rw [show (raw ++ [']']) = (raw ++ ']' :: []) from rfl, hs,
        List.nil_append, replaceDelim_nil, List.append_nil]
      rw [fillCb, hmiss]
    have h6 : fbPass m ('[' :: (raw ++ [']'])) = '[' :: (raw ++ [']']) := by
      rcases fbMatch_plain hraw_ch with hm | hm
      · rw [show ('[' :: (raw ++ [']'])) = ('[' :: (raw ++ ']' :: [])) from
          rfl, fbPass_cons_eq, if_pos rfl, hm]
        rw [fbPass_no_open (by
          intro hmem
          rcases List.mem_append.mp hmem with h | h
          · exact (hplain _ h).1 rfl
          · exact absurd (List.mem_singleton.mp h) (by decide))]
      · have hs := @fbPass_single m [] raw []
          (by simp) hm
        rw [List.nil_append] at hs
        rw [show (raw ++ [']']) = (raw ++ ']' :: []) from rfl, hs,
          List.nil_append, show fbPass m [] = [] from rfl, List.append_nil,
          hcb]
    rw [fillAcrossDelimitersL, h1,
      replaceDbrace_no_open _ _ (Nat.le_refl _) hno_brace,
      replaceDelim_no_open hno_brace,
      replaceDelim_no_open hno_angle,
      replaceDelim_no_open hno_paren,
      h6]

/-- Witness for C9: the unresolvable placeholder `[state]` under the map
`{"city": "Miami"}` comes back intact. -/
theorem claim_C9_witness :
    fillAcrossDelimitersL [("city", "Miami")] ('[' :: ("state".data ++ [']']))
      = '[' :: ("state".data ++ [']']) := by
  refine claim_C9.2.2 "state".data [("city", "Miami")] (by decide) (by decide)
    (by decide) ?_
  intro inner h
  rw [show fbExec ("state".data) = none from by decide] at h
  exact absurd h (by simp)

/-! ### The bracket-only variant (`src/unnamed/part_000`) and claim C2 -/

/-- Collector for the capture groups of a global `o(.+?)c` scan, in
match order (the `matchAll` of `extractPlaceholders`). -/
def collectDGo (o c : Char) : Nat → List Char → List (List Char)
  | 0, _ => []
  | _ + 1, [] => []
  | fuel + 1, x :: xs =>
    if x = o then
      match scanClose c [] xs with
      | some (inner, rest) => inner :: collectDGo o c fuel rest
      | none => collectDGo o c fuel xs
    else collectDGo o c fuel xs

def collectD (o c : Char) (l : List Char) : List (List Char) :=
  collectDGo o c l.length l

/-- First-occurrence deduplication (JS `Set` insertion order). -/
def dedupFirst : List String → List String → List String
  | _, [] => []
  | seen, x :: xs =>
    if x ∈ seen then dedupFirst seen xs
    else x :: dedupFirst (x :: seen) xs

/-- `extractPlaceholders` of the bracket-only variant
(`src/unnamed/part_000`, line 25): the distinct raw inner texts of the
`/\[(.+?)\]/g` matches of the template. -/
def extractPlaceholders (s : String) : List String :=
  dedupFirst [] ((collectD '[' ']' s.data).map String.mk)

/-- The blank test `!vars[k]?.trim()` of `PromptCard.missing`
(`src/unnamed/part_000`, line 43): absent, or whitespace-only. -/
def blankIn (vars : List (String × String)) (k : String) : Bool :=
  match alookup vars k with
  | none => true
  | some v => jsTrim v == ""

/-- `missing` of `PromptCard` (`src/unnamed/part_000`, line 43): the
extracted placeholders whose *raw* key has no non-blank value in the
raw field map — no normalization, aliasing or fallback. -/
def missingOf (body : String) (vars : List (String × String)) : List String :=
  (extractPlaceholders body).filter (fun k => blankIn vars k)

/-- `applyVars` of the bracket-only variant (`src/unnamed/part_000`,
line 26): bracket placeholders only, `vars[k] ?? "[k]"` (an *empty
string* value is substituted, unlike the truthy engine). -/
def applyVarsCb (vars : List (String × String)) (raw : List Char) :
    List Char :=
  match alookup vars ⟨raw⟩ with
  | some v => v.data
  | none => '[' :: (raw ++ [']'])

def applyVars (body : String) (vars : List (String × String)) : String :=
  ⟨replaceDelim '[' ']' (applyVarsCb vars) body.data⟩

example : applyVars "\x7b\x7bcity\x7d\x7d, [state]" [("city", "Miami")]
    = "\x7b\x7bcity\x7d\x7d, [state]" := by decide
example : missingOf "\x7b\x7bcity\x7d\x7d, [state]" [("city", "Miami")]
    = ["state"] := by decide

/-- Collector variant for the double-brace style. -/
def collectD2Go : Nat → List Char → List (List Char)
  | 0, _ => []
  | _ + 1, [] => []
  | _ + 1, [_] => []
  | fuel + 1, x :: y :: xs =>
    if x = '{' ∧ y = '{' then
      match scanClose2 '}' [] xs with
      | some (inner, rest) => inner :: collectD2Go fuel rest
      | none => collectD2Go fuel (y :: xs)
    else collectD2Go fuel (y :: xs)

def collectD2 (l : List Char) : List (List Char) :=
  collectD2Go l.length l

/-- Modelled from the spec's words, for comparison only (claim C2): scan
the original template once for all five delimiter styles and keep the
distinct raw inner texts whose canonical key has no entry in the
expanded map, accounting for the numeric-phrase fallback. -/
def specMissingOf (body : String) (m : List (String × String)) :
    List String :=
  (dedupFirst []
    (((collectD '[' ']' body.data) ++ (collectD2 body.data) ++
      (collectD '{' '}' body.data) ++ (collectD '<' '>' body.data) ++
      (collectD '(' ')' body.data)).map String.mk)).filter
    (fun k =>
      !(tlook m (toKey k)).isSome &&
      !(match fbExec k.data with
        | some inner => (firstTruthyVals m (fbVariations (toKeyL inner))).isSome
        | none => false))

/-- Counterexample to C2 as stated: the missing list is computed from
square-bracket placeholders and raw keys only.  On the template
`"<state>"` with no values, the spec's five-style resolution-aware scan
reports `state` missing, but the code's `missing` is empty — the
`<…>` placeholder is never scanned. -/
theorem claim_C2_counterexample :
    missingOf "<state>" [] = [] ∧
    specMissingOf "<state>" [] = ["state"] := by
  refine ⟨by decide, by decide⟩

theorem dedupFirst_nodup :
    ∀ (l seen : List String),
      (dedupFirst seen l).Nodup ∧ ∀ x ∈ dedupFirst seen l, x ∉ seen := by
  intro l
  induction l with
  | nil =>
    intro seen
    refine ⟨List.nodup_nil, ?_⟩
    intro x hx
    exact absurd hx (List.not_mem_nil x)
  | cons x xs ih =>
    intro seen
    rw [dedupFirst]
    by_cases hx : x ∈ seen
    · rw [if_pos hx]
      exact ih seen
    · rw [if_neg hx]
      obtain ⟨hnd, hout⟩ := ih (x :: seen)
      refine ⟨List.nodup_cons.mpr ⟨?_, hnd⟩, ?_⟩
      · intro hmem
        exact hout x hmem (List.mem_cons_self x seen)
      · intro y hy
        rcases List.mem_cons.mp hy with rfl | hy'
        · exact hx
        · intro hmem
          exact hout y hy' (List.mem_cons_of_mem x hmem)

theorem dedupFirst_mem :
    ∀ (l seen : List String) (x : String),
      x ∈ dedupFirst seen l ↔ (x ∈ l ∧ x ∉ seen) := by
  intro l
  induction l with
  | nil =>
    intro seen x
    simp [dedupFirst]
  | cons y ys ih =>
    intro seen x
    rw [dedupFirst]
    by_cases hy : y ∈ seen
    · rw [if_pos hy, ih]
      constructor
      · rintro ⟨h1, h2⟩
        exact ⟨List.mem_cons_of_mem y h1, h2⟩
      · rintro ⟨h1, h2⟩
        rcases List.mem_cons.mp h1 with rfl | h1'
        · exact absurd hy h2
        · exact ⟨h1', h2⟩
    · rw [if_neg hy]
      constructor
      · intro h
        rcases List.mem_cons.mp h with rfl | h'
        · exact ⟨List.mem_cons_self x ys, hy⟩
        · obtain ⟨h1, h2⟩ := (ih (y :: seen) x).mp h'
          refine ⟨List.mem_cons_of_mem y h1, ?_⟩
          intro hmem
          exact h2 (List.mem_cons_of_mem y hmem)
      · rintro ⟨h1, h2⟩
        rcases List.mem_cons.mp h1 with rfl | h1'
        · exact List.mem_cons_self x _
        · by_cases hxy : x = y
          · subst hxy
            exact List.mem_cons_self x _
          · refine List.mem_cons_of_mem y ((ih (y :: seen) x).mpr ⟨h1', ?_⟩)
            intro hmem
            rcases List.mem_cons.mp hmem with h'' | h''
            · exact hxy h''
            · exact h2 h''

/-- C2, amended: the missing list is computed by scanning the original
template for square-bracket placeholders only, collecting the distinct
raw inner texts whose exact raw key has no non-blank value in the raw
field-value map — with no normalization, alias expansion or
numeric-phrase fallback.  The list is duplicate-free, a string belongs
to it exactly when it is a bracket capture of the template whose raw key
is blank in the map, and the double-curly/bracket example with
`{"city": "Miami"}` still yields `missing = ["state"]`. -/
theorem claim_C2 :
    (∀ (body : String) (vars : List (String × String)),
      (missingOf body vars).Nodup) ∧
    (∀ (body : String) (vars : List (String × String)) (k : String),
      k ∈ missingOf body vars ↔
        (k ∈ (collectD '[' ']' body.data).map String.mk ∧
          blankIn vars k = true)) ∧
    missingOf "\x7b\x7bcity\x7d\x7d, [state]" [("city", "Miami")] = ["state"] := by
  refine ⟨?_, ?_, by decide⟩
  · intro body vars
    exact List.Nodup.filter _
      (dedupFirst_nodup ((collectD '[' ']' body.data).map String.mk) []).1
  · intro body vars k
    rw [missingOf, List.mem_filter, extractPlaceholders,
      dedupFirst_mem ((collectD '[' ']' body.data).map String.mk) [] k]
    constructor
    · rintro ⟨⟨h1, -⟩, h2⟩
      exact ⟨h1, h2⟩
    · rintro ⟨h1, h2⟩
      exact ⟨⟨h1, List.not_mem_nil k⟩, h2⟩

end BRTS
